import Mathlib

/-!
Shallow embedding of the storage / codec / title-resolution core of the
Movie-Project-2 repository (src/file_handler.py, src/storage/storage_json.py,
src/storage/storage_csv.py, src/user_input_handler.py), with proofs of the
specification claims about it.

Modelling conventions:
* Python strings are `List Char` (`Str`).
* A file's content is a `Str`; a possibly-missing file is `Option Str`.
* Writing in text mode on a POSIX system stores the string verbatim
  (newline translation on write only rewrites LF to `os.linesep`, which is
  LF itself on POSIX).  Reading in text mode applies Python's
  universal-newline translation (CRLF and lone CR both become LF), modelled
  by `univNewlines`.
* Machine floats only occur in the `rating` field, never inspected by the
  modelled operations; they are modelled as `Rat`.
-/

abbrev Str := List Char

/-- ASCII whitespace stripped by Python's `str.strip()` (the repository only
ever strips spaces, tabs and line terminators; the non-ASCII Unicode
whitespace accepted by CPython is outside the modelled character set). -/
def isPyWs (c : Char) : Bool :=
  c = ' ' || c = '\t' || c = '\n' || c = '\r' || c = '\x0b' || c = '\x0c'

/-- Python `str.lstrip()`. -/
def lstripPy (s : Str) : Str := s.dropWhile isPyWs

/-- Python `str.strip()`: drop leading and trailing whitespace. -/
def stripPy (s : Str) : Str := ((lstripPy s).reverse.dropWhile isPyWs).reverse

/-- Python `str.lower()` restricted to ASCII case folding (the titles and
extensions handled by the repository are ASCII; CPython additionally folds
non-ASCII letters). -/
def lowerPy (s : Str) : Str := s.map Char.toLower

/-- Universal-newline translation applied by `open(path)` in read mode:
`\r\n` and lone `\r` both become `\n`. -/
def univNewlines : Str → Str
  | [] => []
  | [c] => if c = '\r' then ['\n'] else [c]
  | c :: d :: r =>
    if c = '\r' then
      if d = '\n' then '\n' :: univNewlines r else '\n' :: univNewlines (d :: r)
    else c :: univNewlines (d :: r)

theorem univNewlines_cons_of_ne (c : Char) (r : Str) (h : c ≠ '\r') :
    univNewlines (c :: r) = c :: univNewlines r := by
  cases r with
  | nil => simp [univNewlines, h]
  | cons d t => simp [univNewlines, h]

/-- No raw carriage return occurs in the string. -/
def noCR (s : Str) : Prop := ∀ c ∈ s, c ≠ '\r'

instance (s : Str) : Decidable (noCR s) := by unfold noCR; infer_instance

theorem univNewlines_eq_self {s : Str} (h : noCR s) : univNewlines s = s := by
  induction s with
  | nil => rfl
  | cons c r ih =>
    rw [univNewlines_cons_of_ne c r (h c (List.mem_cons_self c r))]
    exact congrArg (c :: ·) (ih fun x hx => h x (List.mem_cons_of_mem c hx))

theorem univNewlines_append_of_noCR {s : Str} (t : Str) (h : noCR s) :
    univNewlines (s ++ t) = s ++ univNewlines t := by
  induction s with
  | nil => rfl
  | cons c r ih =>
    rw [List.cons_append,
        univNewlines_cons_of_ne c (r ++ t) (h c (List.mem_cons_self c r))]
    exact congrArg (c :: ·) (ih fun x hx => h x (List.mem_cons_of_mem c hx))

/-- Split a string at every `\n` (the pieces do not contain the separator). -/
def splitOnNl : Str → List Str
  | [] => [[]]
  | c :: r =>
    if c = '\n' then [] :: splitOnNl r
    else
      match splitOnNl r with
      | [] => [[c]]
      | t :: ts => (c :: t) :: ts

theorem splitOnNl_cons_ne (c : Char) (r : Str) (h : c ≠ '\n') :
    splitOnNl (c :: r) =
      match splitOnNl r with
      | [] => [[c]]
      | t :: ts => (c :: t) :: ts := by
  simp [splitOnNl, h]

theorem splitOnNl_ne_nil (s : Str) : splitOnNl s ≠ [] := by
  cases s with
  | nil => simp [splitOnNl]
  | cons c r =>
    unfold splitOnNl
    split
    · simp
    · split <;> simp

theorem splitOnNl_line {l : Str} (rest : Str) (h : '\n' ∉ l) :
    splitOnNl (l ++ '\n' :: rest) = l :: splitOnNl rest := by
  induction l with
  | nil =>
    show splitOnNl ('\n' :: rest) = [] :: splitOnNl rest
    simp [splitOnNl]
  | cons c r ih =>
    have hc : c ≠ '\n' := fun hx => h (hx ▸ List.mem_cons_self c r)
    have hr : '\n' ∉ r := fun hx => h (List.mem_cons_of_mem c hx)
    show splitOnNl (c :: (r ++ '\n' :: rest)) = (c :: r) :: splitOnNl rest
    rw [splitOnNl_cons_ne c _ hc, ih hr]

/-! ### Line-oriented (TXT), raw-string (HTML) and binary codecs
(src/file_handler.py: TXTFileHandler, HTMLFileHandler, BinaryFileHandler). -/

/-- Python `"\n".join`. -/
def joinNl : List Str → Str
  | [] => []
  | [l] => l
  | l :: ls => l ++ '\n' :: joinNl ls

/-- `TXTFileHandler.save_data`: writes `"\n".join(data) + "\n"`. -/
def txt_save_data (data : List Str) : Str := joinNl data ++ ['\n']

/-- `TXTFileHandler.load_data`: `[line.strip() for line in handle if line.strip()]`.
Iterating the handle splits at newlines after universal-newline translation;
the final empty piece produced by `splitOnNl` on terminator-ended content is
blank and removed by the filter, matching Python's line iteration. -/
def txt_load_data (content : Str) : List Str :=
  ((splitOnNl (univNewlines content)).map stripPy).filter (· ≠ [])

/-- The Value shape of the line-oriented codec (spec section 4.1): non-blank,
trimmed lines.  A line contains no terminator characters. -/
def isLine (l : Str) : Prop :=
  l ≠ [] ∧ stripPy l = l ∧ '\n' ∉ l ∧ '\r' ∉ l

instance (l : Str) : Decidable (isLine l) := by unfold isLine; infer_instance

/-- `HTMLFileHandler.save_data`: writes the string verbatim (POSIX). -/
def html_save_data (data : Str) : Str := data

/-- `HTMLFileHandler.load_data`: reads the whole file in text mode. -/
def html_load_data (content : Str) : Str := univNewlines content

/-- `BinaryFileHandler.save_data`: stores the bytes verbatim. -/
def binary_save_data (data : List Nat) : List Nat := data

/-- `BinaryFileHandler.load_data`: reads the bytes verbatim (binary mode has
no newline translation). -/
def binary_load_data (content : List Nat) : List Nat := content

theorem noCR_joinNl {lines : List Str} (h : ∀ l ∈ lines, '\r' ∉ l) :
    noCR (joinNl lines) := by
  induction lines with
  | nil => intro c hc; simp [joinNl] at hc
  | cons l ls ih =>
    intro c hc
    cases ls with
    | nil =>
      simp only [joinNl] at hc
      exact fun he => (h l (by simp)) (he ▸ hc)
    | cons l2 ls2 =>
      simp only [joinNl, List.mem_append, List.mem_cons] at hc
      rcases hc with hc | hc | hc
      · exact fun he => (h l (by simp)) (he ▸ hc)
      · simp [hc]
      · exact ih (fun x hx => h x (List.mem_cons_of_mem l hx)) c hc

theorem splitOnNl_joinNl {lines : List Str} (rest : Str) (hne : lines ≠ [])
    (h : ∀ l ∈ lines, '\n' ∉ l) :
    splitOnNl (joinNl lines ++ '\n' :: rest) = lines ++ splitOnNl rest := by
  induction lines with
  | nil => exact absurd rfl hne
  | cons l ls ih =>
    cases ls with
    | nil =>
      show splitOnNl (l ++ '\n' :: rest) = l :: splitOnNl rest
      exact splitOnNl_line rest (h l (by simp))
    | cons l2 ls2 =>
      show splitOnNl ((l ++ '\n' :: joinNl (l2 :: ls2)) ++ '\n' :: rest) = _
      rw [List.append_assoc, List.cons_append,
          splitOnNl_line (joinNl (l2 :: ls2) ++ '\n' :: rest) (h l (by simp)),
          ih (by simp) (fun x hx => h x (List.mem_cons_of_mem l hx))]
      rfl

/-- Round trip for the line-oriented codec on its Value shape. -/
theorem txt_save_load (lines : List Str) (h : ∀ l ∈ lines, isLine l) :
    txt_load_data (txt_save_data lines) = lines := by
  unfold txt_save_data txt_load_data
  have hcr : noCR (joinNl lines ++ ['\n']) := by
    intro c hc
    rcases List.mem_append.1 hc with hc | hc
    · exact noCR_joinNl (fun l hl => (h l hl).2.2.2) c hc
    · simp only [List.mem_singleton] at hc; simp [hc]
  rw [univNewlines_eq_self hcr]
  cases lines with
  | nil => rfl
  | cons l ls =>
    rw [show (joinNl (l :: ls) ++ ['\n'] : Str) = joinNl (l :: ls) ++ '\n' :: [] by rfl,
        splitOnNl_joinNl [] (by simp) (fun x hx => (h x hx).2.2.1)]
    show ((((l :: ls) ++ [[]]).map stripPy).filter (· ≠ [])) = l :: ls
    rw [List.map_append, List.filter_append]
    have h1 : ((l :: ls).map stripPy) = l :: ls := by
      conv_rhs => rw [← List.map_id (l :: ls)]
      exact List.map_congr_left (fun x hx => (h x hx).2.1)
    rw [h1]
    have h2 : (l :: ls).filter (· ≠ []) = l :: ls :=
      List.filter_eq_self.2 (fun x hx => by
        simpa using (h x hx).1)
    rw [h2]
    simp [stripPy, lstripPy]

/-- Round trip for the raw-string (HTML) codec on CR-free strings. -/
theorem html_save_load (s : Str) (h : noCR s) :
    html_load_data (html_save_data s) = s :=
  univNewlines_eq_self h

/-- Round trip for the binary codec. -/
theorem binary_save_load (b : List Nat) :
    binary_load_data (binary_save_data b) = b := rfl

/-- The raw-string codec does not round-trip a bare carriage return: text-mode
reading translates it to a line feed. -/
theorem html_save_load_cr :
    html_load_data (html_save_data ['\r']) = ['\n'] := rfl

/-! ### Delimited-table (CSV) codec (src/file_handler.py: CSVFileHandler).

The Value shape is an ordered sequence of string-valued mappings (Python
dicts), modelled as association lists with distinct keys.  Saving uses
`csv.DictWriter` with fieldnames taken from the first record (excel dialect:
delimiter `,`, quote char `"`, doubled quotes, minimal quoting, row
terminator CRLF, written through a `newline=""` handle, so stored verbatim).
Loading opens the file without `newline=""`, so universal-newline translation
runs before `csv.DictReader` parses. -/

/-- A record handed to the delimited-table codec: a dict with string values. -/
abbrev CsvRec := List (Str × Str)

/-- A record produced by `csv.DictReader`: values are `None` when the row is
shorter than the header (`restval`), and extra cells beyond the header are
collected under the rest key (second component, Python's `None` key). -/
abbrev LoadedRec := List (Str × Option Str) × Option (List Str)

/-- First-match association lookup (Python dict access; keys are unique). -/
def assocLookup : List (Str × Str) → Str → Option Str
  | [], _ => none
  | (k, v) :: rest, key => if k = key then some v else assocLookup rest key

def keysOf (rec : List (Str × Str)) : List Str := rec.map Prod.fst

/-- The excel dialect quotes a field that contains the delimiter, the quote
character, or a line-terminator character; additionally a lone empty field in
a one-field row is quoted so the row is not a blank line. -/
def needsQuote (f : Str) (onlyField : Bool) : Bool :=
  f.any (fun c => c = ',' || c = '"' || c = '\r' || c = '\n') || (f.isEmpty && onlyField)

/-- Double every quote character (excel dialect `doublequote=True`). -/
def dqChars : Str → Str
  | [] => []
  | c :: r => if c = '"' then '"' :: '"' :: dqChars r else c :: dqChars r

def quoteField (f : Str) (onlyField : Bool) : Str :=
  if needsQuote f onlyField then '"' :: dqChars f ++ ['"'] else f

/-- Join pieces with a separator character. -/
def joinSep (sep : Char) : List Str → Str
  | [] => []
  | [f] => f
  | f :: fs => f ++ sep :: joinSep sep fs

/-- One CSV row as written by `csv.writer.writerow` (excel dialect), CRLF
terminated. -/
def writeRow (fields : List Str) : Str :=
  joinSep ',' (fields.map (fun f => quoteField f (fields.length = 1))) ++ ['\r', '\n']

/-- `csv.DictWriter._dict_to_list` with `restval=""`: the record's values in
fieldname order, `""` for missing keys.  (With `extrasaction="raise"` a key
outside the fieldnames raises `ValueError`; that error path lies outside the
well-formed domain `CsvWf` used below, where key sets always coincide.) -/
def dict_to_list (fieldnames : List Str) (rec : CsvRec) : List Str :=
  fieldnames.map (fun k => (assocLookup rec k).getD [])

def concatL : List Str → Str
  | [] => []
  | s :: ss => s ++ concatL ss

/-- The full file content produced for a non-empty record sequence: header row
from the first record's keys (`writeheader`), then one row per record. -/
def csv_render (data : List CsvRec) : Str :=
  let fns := keysOf (data.headD [])
  writeRow fns ++ concatL (data.map (fun rec => writeRow (dict_to_list fns rec)))

/-- `CSVFileHandler.save_data`: `if not data: return` (deliberate no-op that
leaves the backing file untouched), else truncate and write all rows. -/
def csv_save_data (data : List CsvRec) (file : Option Str) : Option Str :=
  if data = [] then file else some (csv_render data)

/-- Where a CSV field ends: at a delimiter, at a record end, or at input end. -/
inductive FieldEnd where
  | comma (rest : Str)
  | nl (rest : Str)
  | eof
deriving DecidableEq, Repr

/-- Scan the inside of a quoted field: a doubled quote is a literal quote, a
lone quote closes the field.  (An unterminated quote at end of input is
returned as-is; `csv.reader` raises there, a path never reached from writer
output.) -/
def pQuoted : Str → (Str × Str)
  | [] => ([], [])
  | [c] => if c = '"' then ([], []) else ([c], [])
  | c :: d :: r =>
    if c = '"' then
      if d = '"' then
        let (f, rest) := pQuoted r
        ('"' :: f, rest)
      else ([], d :: r)
    else
      let (f, rest) := pQuoted (d :: r)
      (c :: f, rest)

/-- Scan an unquoted stretch up to a delimiter or record end; quote characters
here are literal (non-strict dialect).  Also consumes the junk after a closing
quote. -/
def pUnquoted : Str → (Str × FieldEnd)
  | [] => ([], .eof)
  | c :: r =>
    if c = ',' then ([], .comma r)
    else if c = '\n' then ([], .nl r)
    else
      let (f, e) := pUnquoted r
      (c :: f, e)

/-- Parse one field: a leading quote opens a quoted field, anything after the
closing quote up to the delimiter is appended literally (non-strict). -/
def pField : Str → (Str × FieldEnd)
  | [] => ([], .eof)
  | c :: r =>
    if c = '"' then
      let (f, r') := pQuoted r
      let (g, e) := pUnquoted r'
      (f ++ g, e)
    else pUnquoted (c :: r)

/-- Parse the fields of one record (fuel bounds the number of fields, which
is at most the input length plus one). -/
def pRecord : Nat → Str → (List Str × Option Str)
  | 0, _ => ([], none)
  | fuel + 1, cs =>
    let (f, e) := pField cs
    match e with
    | .eof => ([f], none)
    | .nl r => ([f], some r)
    | .comma r =>
      let (fs, rest) := pRecord fuel r
      (f :: fs, rest)

/-- Parse all records.  A line that is immediately terminated yields the empty
record (Python's `csv.reader` yields `[]` for a blank line). -/
def pRecords : Nat → Str → List (List Str)
  | 0, _ => []
  | fuel + 1, cs =>
    match cs with
    | [] => []
    | c :: r =>
      if c = '\n' then [] :: pRecords fuel r
      else
        let (fs, rest) := pRecord (cs.length + 1) (c :: r)
        match rest with
        | none => [fs]
        | some r' => fs :: pRecords fuel r'

/-- `csv.DictReader` row conversion: zip the header with the row, pad missing
cells with `None` (`restval`), collect extra cells under the rest key. -/
def toLoadedRec (fns : List Str) (row : List Str) : LoadedRec :=
  (fns.zip (row.map some ++ List.replicate (fns.length - row.length) none),
   if fns.length < row.length then some (row.drop fns.length) else none)

/-- `list(csv.DictReader(handle)) if reader.fieldnames else []`: the first
record is the header; a falsy (absent or empty) header yields no records, and
blank rows are skipped. -/
def dictread (recs : List (List Str)) : List LoadedRec :=
  match recs with
  | [] => []
  | fns :: rest =>
    if fns = [] then []
    else (rest.filter (· ≠ [])).map (toLoadedRec fns)

/-- `CSVFileHandler.load_data`: empty result for a missing file, otherwise
parse the universal-newline-translated content. -/
def csv_load_data (file : Option Str) : List LoadedRec :=
  match file with
  | none => []
  | some content =>
    let cs := univNewlines content
    dictread (pRecords (cs.length + 1) cs)

/-! ### CSV round-trip lemmas -/

theorem pQuoted_cons_ne (c : Char) (r : Str) (h : c ≠ '"') :
    pQuoted (c :: r) = (c :: (pQuoted r).1, (pQuoted r).2) := by
  cases r with
  | nil => simp [pQuoted, h]
  | cons d t => simp [pQuoted, h]

theorem pQuoted_quote_quote (r : Str) :
    pQuoted ('"' :: '"' :: r) = ('"' :: (pQuoted r).1, (pQuoted r).2) := by
  simp [pQuoted]

theorem pQuoted_quote_end (d : Char) (r : Str) (h : d ≠ '"') :
    pQuoted ('"' :: d :: r) = ([], d :: r) := by
  simp [pQuoted, h]

/-- The quoted-field scanner undoes quote doubling, stopping at the closing
quote (the next character is the delimiter, never a quote). -/
theorem pQuoted_dq (f : Str) (d : Char) (r : Str) (hd : d ≠ '"') :
    pQuoted (dqChars f ++ '"' :: d :: r) = (f, d :: r) := by
  induction f with
  | nil => simpa [dqChars] using pQuoted_quote_end d r hd
  | cons c f' ih =>
    by_cases hc : c = '"'
    · subst hc
      rw [show dqChars ('"' :: f') = '"' :: '"' :: dqChars f' from by simp [dqChars],
          List.cons_append, List.cons_append, pQuoted_quote_quote, ih]
    · rw [show dqChars (c :: f') = c :: dqChars f' from by simp [dqChars, hc],
          List.cons_append, pQuoted_cons_ne c _ hc, ih]

theorem pUnquoted_cons_ne (c : Char) (r : Str) (h1 : c ≠ ',') (h2 : c ≠ '\n') :
    pUnquoted (c :: r) = (c :: (pUnquoted r).1, (pUnquoted r).2) := by
  simp [pUnquoted, h1, h2]

theorem pUnquoted_append (f t : Str) (h : ∀ c ∈ f, c ≠ ',' ∧ c ≠ '\n') :
    pUnquoted (f ++ t) = (f ++ (pUnquoted t).1, (pUnquoted t).2) := by
  induction f with
  | nil => simp
  | cons c f' ih =>
    have hc := h c (List.mem_cons_self c f')
    rw [List.cons_append, pUnquoted_cons_ne c _ hc.1 hc.2,
        ih (fun x hx => h x (List.mem_cons_of_mem c hx))]
    simp

theorem pField_cons (c : Char) (r : Str) :
    pField (c :: r) =
      if c = '"' then
        ((pQuoted r).1 ++ (pUnquoted (pQuoted r).2).1, (pUnquoted (pQuoted r).2).2)
      else pUnquoted (c :: r) := by
  simp [pField]

/-- A field as written by the excel-dialect writer, followed by a delimiter,
parses back to itself with the delimiter as the field end. -/
theorem pField_quoteField (f : Str) (only : Bool) (d : Char) (r : Str)
    (hd : d = ',' ∨ d = '\n') (hf : noCR f) :
    pField (quoteField f only ++ d :: r) =
      (f, if d = ',' then FieldEnd.comma r else FieldEnd.nl r) := by
  have hdq : d ≠ '"' := by rcases hd with h | h <;> simp [h]
  have hDelim : pUnquoted (d :: r) =
      ([], if d = ',' then FieldEnd.comma r else FieldEnd.nl r) := by
    rcases hd with h | h <;> simp [pUnquoted, h]
  unfold quoteField
  by_cases hq : needsQuote f only
  · rw [if_pos hq]
    have harg : ('"' :: dqChars f ++ ['"']) ++ d :: r =
        '"' :: (dqChars f ++ '"' :: d :: r) := by simp
    rw [harg, pField_cons, if_pos rfl, pQuoted_dq f d r hdq, hDelim]
    simp
  · rw [if_neg hq]
    have hclean : ∀ c ∈ f, c ≠ ',' ∧ c ≠ '\n' ∧ c ≠ '"' := by
      intro c hc
      have hnot : ¬ ((c = ',' || c = '"' || c = '\r' || c = '\n') = true) := by
        intro hcc
        apply hq
        unfold needsQuote
        rw [List.any_eq_true.2 ⟨c, hc, hcc⟩]
        simp
      simp only [Bool.or_eq_true, decide_eq_true_eq, not_or] at hnot
      exact ⟨hnot.1.1.1, hnot.2, hnot.1.1.2⟩
    cases f with
    | nil =>
      rw [List.nil_append, pField_cons, if_neg hdq, hDelim]
    | cons c f' =>
      have hc := hclean c (List.mem_cons_self c f')
      rw [List.cons_append, pField_cons, if_neg hc.2.2, ← List.cons_append,
          pUnquoted_append (c :: f') (d :: r)
            (fun x hx => ⟨(hclean x hx).1, (hclean x hx).2.1⟩),
          hDelim]
      simp

/-- The body of a written row, before the CRLF terminator. -/
def rowBody (fields : List Str) : Str :=
  joinSep ',' (fields.map (fun f => quoteField f (fields.length = 1)))

theorem writeRow_eq (fields : List Str) :
    writeRow fields = rowBody fields ++ ['\r', '\n'] := rfl

theorem noCR_dqChars {f : Str} (h : noCR f) : noCR (dqChars f) := by
  induction f with
  | nil => exact h
  | cons c r ih =>
    have hc := h c (List.mem_cons_self c r)
    have hr : noCR r := fun x hx => h x (List.mem_cons_of_mem c hx)
    unfold dqChars
    split
    · intro x hx
      rcases hx with _ | ⟨_, hx⟩
      · simp
      rcases hx with _ | ⟨_, hx⟩
      · simp
      · exact ih hr x hx
    · intro x hx
      rcases hx with _ | ⟨_, hx⟩
      · exact hc
      · exact ih hr x hx

theorem noCR_quoteField {f : Str} (only : Bool) (h : noCR f) :
    noCR (quoteField f only) := by
  unfold quoteField
  split
  · intro x hx
    rcases hx with _ | ⟨_, hx⟩
    · simp
    rcases List.mem_append.1 hx with hx | hx
    · exact noCR_dqChars h x hx
    · simp only [List.mem_singleton] at hx; simp [hx]
  · exact h

theorem noCR_joinSep {parts : List Str} (sep : Char) (hsep : sep ≠ '\r')
    (h : ∀ p ∈ parts, noCR p) : noCR (joinSep sep parts) := by
  induction parts with
  | nil => intro c hc; simp [joinSep] at hc
  | cons p ps ih =>
    cases ps with
    | nil => exact h p (by simp)
    | cons p2 ps2 =>
      show noCR (p ++ sep :: joinSep sep (p2 :: ps2))
      intro c hc
      rcases List.mem_append.1 hc with hc | hc
      · exact h p (by simp) c hc
      rcases hc with _ | ⟨_, hc⟩
      · exact hsep
      · exact ih (fun x hx => h x (List.mem_cons_of_mem p hx)) c hc

theorem noCR_rowBody {fields : List Str} (h : ∀ f ∈ fields, noCR f) :
    noCR (rowBody fields) := by
  unfold rowBody
  refine noCR_joinSep ',' (by simp) ?_
  intro p hp
  rcases List.mem_map.1 hp with ⟨f, hf, rfl⟩
  exact noCR_quoteField _ (h f hf)

theorem quoteField_head_ne_nl {f : Str} {only : Bool} {c : Char} {bs : Str}
    (h : quoteField f only = c :: bs) : c ≠ '\n' := by
  unfold quoteField at h
  split at h
  · injection h with h1 _
    rw [← h1]; simp
  · rename_i hq
    intro hcn
    apply hq
    unfold needsQuote
    have : c ∈ f := h ▸ List.mem_cons_self c bs
    rw [List.any_eq_true.2 ⟨c, this, by simp [hcn]⟩]
    simp

theorem rowBody_shape {fields : List Str} (hne : fields ≠ []) :
    ∃ b bs, rowBody fields = b :: bs ∧ b ≠ '\n' := by
  cases fields with
  | nil => exact absurd rfl hne
  | cons f fs =>
    cases fs with
    | nil =>
      show ∃ b bs, joinSep ',' [quoteField f _] = b :: bs ∧ b ≠ '\n'
      cases hq : quoteField f (decide ([f].length = 1)) with
      | nil =>
        exfalso
        unfold quoteField at hq
        split at hq
        · simp at hq
        · rename_i hneed
          subst hq
          exact hneed (by unfold needsQuote; simp)
      | cons b bs =>
        exact ⟨b, bs, by simp [joinSep, hq], quoteField_head_ne_nl hq⟩
    | cons f2 fs2 =>
      have hrb : rowBody (f :: f2 :: fs2) =
          quoteField f (decide ((f :: f2 :: fs2).length = 1)) ++
            ',' :: joinSep ','
              ((f2 :: fs2).map
                (fun g => quoteField g (decide ((f :: f2 :: fs2).length = 1)))) := rfl
      cases hq : quoteField f (decide ((f :: f2 :: fs2).length = 1)) with
      | nil => exact ⟨',', _, by rw [hrb, hq]; rfl, by simp⟩
      | cons b bs => exact ⟨b, _, by rw [hrb, hq]; rfl, quoteField_head_ne_nl hq⟩

theorem joinSep_length_ge (sep : Char) (parts : List Str) :
    parts.length ≤ (joinSep sep parts).length + 1 := by
  induction parts with
  | nil => simp
  | cons p ps ih =>
    cases ps with
    | nil => simp [joinSep]
    | cons p2 ps2 =>
      show (p :: p2 :: ps2).length ≤ (p ++ sep :: joinSep sep (p2 :: ps2)).length + 1
      simp only [List.length_cons, List.length_append] at *
      omega

theorem rowBody_length_ge (fields : List Str) :
    fields.length ≤ (rowBody fields).length + 1 := by
  have := joinSep_length_ge ',' (fields.map (fun f => quoteField f (fields.length = 1)))
  simpa [rowBody] using this

theorem pRecord_eq_nl (fuel : Nat) (cs f r : Str) (h : pField cs = (f, .nl r)) :
    pRecord (fuel + 1) cs = ([f], some r) := by
  simp [pRecord, h]

theorem pRecord_eq_comma (fuel : Nat) (cs f r : Str) (h : pField cs = (f, .comma r)) :
    pRecord (fuel + 1) cs = (f :: (pRecord fuel r).1, (pRecord fuel r).2) := by
  simp [pRecord, h]

theorem pField_quoteField_comma (f : Str) (only : Bool) (r : Str) (hf : noCR f) :
    pField (quoteField f only ++ ',' :: r) = (f, .comma r) := by
  rw [pField_quoteField f only ',' r (Or.inl rfl) hf]
  simp

theorem pField_quoteField_nl (f : Str) (only : Bool) (r : Str) (hf : noCR f) :
    pField (quoteField f only ++ '\n' :: r) = (f, .nl r) := by
  rw [pField_quoteField f only '\n' r (Or.inr rfl) hf]
  simp

theorem pRecord_fields_false (fs : List Str) (rest : Str) (hne : fs ≠ [])
    (hcr : ∀ f ∈ fs, noCR f) :
    ∀ fuel, fs.length ≤ fuel →
      pRecord fuel (joinSep ',' (fs.map (fun f => quoteField f false)) ++ '\n' :: rest) =
        (fs, some rest) := by
  induction fs with
  | nil => exact absurd rfl hne
  | cons f fs' ih =>
    intro fuel hfuel
    cases fuel with
    | zero => simp at hfuel
    | succ g =>
      cases fs' with
      | nil =>
        exact pRecord_eq_nl g _ f rest (pField_quoteField_nl f false rest (hcr f (by simp)))
      | cons f2 fs2 =>
        have harg : joinSep ',' ((f :: f2 :: fs2).map (fun f => quoteField f false))
              ++ '\n' :: rest =
            quoteField f false ++ ',' ::
              (joinSep ',' ((f2 :: fs2).map (fun f => quoteField f false))
                ++ '\n' :: rest) := by
          simp [joinSep]
        rw [harg, pRecord_eq_comma g _ f _
              (pField_quoteField_comma f false _ (hcr f (by simp))),
            ih (by simp) (fun x hx => hcr x (List.mem_cons_of_mem f hx)) g
              (by simpa using Nat.le_of_succ_le_succ hfuel)]

/-- A written row followed by a record terminator parses back to its fields. -/
theorem pRecord_rowBody (fields : List Str) (rest : Str) (hne : fields ≠ [])
    (hcr : ∀ f ∈ fields, noCR f) :
    ∀ fuel, fields.length ≤ fuel →
      pRecord fuel (rowBody fields ++ '\n' :: rest) = (fields, some rest) := by
  intro fuel hfuel
  cases fields with
  | nil => exact absurd rfl hne
  | cons f fs =>
    cases fs with
    | nil =>
      cases fuel with
      | zero => simp at hfuel
      | succ g =>
        have hflag : rowBody [f] = quoteField f true := by
          simp [rowBody, joinSep]
        rw [hflag]
        exact pRecord_eq_nl g _ f rest (pField_quoteField_nl f true rest (hcr f (by simp)))
    | cons f2 fs2 =>
      have hflag : rowBody (f :: f2 :: fs2) =
          joinSep ',' ((f :: f2 :: fs2).map (fun g => quoteField g false)) := by
        have hd : (decide ((f :: f2 :: fs2).length = 1)) = false := by simp
        unfold rowBody
        rw [hd]
      rw [hflag]
      exact pRecord_fields_false (f :: f2 :: fs2) rest (by simp) hcr fuel hfuel

theorem pRecords_nil (fuel : Nat) : pRecords fuel [] = [] := by
  cases fuel <;> simp [pRecords]

theorem concatL_cons (s : Str) (ss : List Str) :
    concatL (s :: ss) = s ++ concatL ss := rfl

theorem pRecords_cons_ne (fuel : Nat) (c : Char) (r : Str) (h : c ≠ '\n')
    (fs : List Str) (rest : Str)
    (hrec : pRecord ((c :: r).length + 1) (c :: r) = (fs, some rest)) :
    pRecords (fuel + 1) (c :: r) = fs :: pRecords fuel rest := by
  simp only [List.length_cons] at hrec
  simp [pRecords, h, hrec]

/-- Parsing the LF-terminated concatenation of written rows recovers every
row's fields. -/
theorem pRecords_rows (rows : List (List Str))
    (h : ∀ fs ∈ rows, fs ≠ [] ∧ ∀ f ∈ fs, noCR f) :
    ∀ fuel, rows.length ≤ fuel →
      pRecords fuel (concatL (rows.map (fun fs => rowBody fs ++ ['\n']))) = rows := by
  induction rows with
  | nil => intro fuel _; exact pRecords_nil fuel
  | cons fs rows' ih =>
    intro fuel hfuel
    cases fuel with
    | zero => simp at hfuel
    | succ g =>
      obtain ⟨hne, hcr⟩ := h fs (by simp)
      obtain ⟨b, bs, hshape, hb⟩ := rowBody_shape hne
      have hsplit : (b :: (bs ++ '\n' ::
            concatL (rows'.map (fun fs => rowBody fs ++ ['\n'])))) =
          rowBody fs ++ '\n' :: concatL (rows'.map (fun fs => rowBody fs ++ ['\n'])) := by
        rw [hshape]; rfl
      have harg : concatL (((fs :: rows').map (fun fs => rowBody fs ++ ['\n']))) =
          b :: (bs ++ '\n' ::
            concatL (rows'.map (fun fs => rowBody fs ++ ['\n']))) := by
        rw [List.map_cons, concatL_cons, hshape]
        simp
      rw [harg]
      have hrec : pRecord ((b :: (bs ++ '\n' ::
            concatL (rows'.map (fun fs => rowBody fs ++ ['\n'])))).length + 1)
            (b :: (bs ++ '\n' :: concatL (rows'.map (fun fs => rowBody fs ++ ['\n'])))) =
          (fs, some (concatL (rows'.map (fun fs => rowBody fs ++ ['\n'])))) := by
        rw [hsplit]
        apply pRecord_rowBody fs _ hne hcr
        have h1 := rowBody_length_ge fs
        have h2 : (rowBody fs).length + 1 ≤
            (rowBody fs ++ '\n' ::
              concatL (rows'.map (fun fs => rowBody fs ++ ['\n']))).length := by
          simp
        rw [← hsplit] at h2 ⊢
        omega
      rw [pRecords_cons_ne g b _ hb fs _ hrec,
          ih (fun x hx => h x (List.mem_cons_of_mem fs hx)) g
            (by simpa using Nat.le_of_succ_le_succ hfuel)]

theorem univNewlines_crlf (r : Str) :
    univNewlines ('\r' :: '\n' :: r) = '\n' :: univNewlines r := by
  simp [univNewlines]

/-- Universal-newline translation turns the CRLF-terminated written rows into
their LF-terminated bodies (row bodies are CR-free for CR-free fields). -/
theorem univNewlines_concat_rows (rows : List (List Str))
    (h : ∀ fs ∈ rows, ∀ f ∈ fs, noCR f) :
    univNewlines (concatL (rows.map writeRow)) =
      concatL (rows.map (fun fs => rowBody fs ++ ['\n'])) := by
  induction rows with
  | nil => rfl
  | cons fs rows' ih =>
    rw [List.map_cons, concatL_cons, writeRow_eq]
    have hsh : (rowBody fs ++ ['\r', '\n']) ++ concatL (rows'.map writeRow) =
        rowBody fs ++ ('\r' :: '\n' :: concatL (rows'.map writeRow)) := by simp
    rw [hsh,
        univNewlines_append_of_noCR _ (noCR_rowBody (h fs (by simp))),
        univNewlines_crlf,
        ih (fun x hx => h x (List.mem_cons_of_mem fs hx)),
        List.map_cons, concatL_cons]
    simp

theorem assocLookup_cons_self (k : Str) (v : Str) (rest : CsvRec) :
    assocLookup ((k, v) :: rest) k = some v := by
  simp [assocLookup]

theorem assocLookup_cons_ne (k k' : Str) (v : Str) (rest : CsvRec) (h : k ≠ k') :
    assocLookup ((k, v) :: rest) k' = assocLookup rest k' := by
  simp [assocLookup, h]

/-- For a record whose keys are exactly the (distinct) fieldnames,
`_dict_to_list` returns the record's values in order. -/
theorem dict_to_list_eq (rec : CsvRec) (hnd : (keysOf rec).Nodup) :
    dict_to_list (keysOf rec) rec = rec.map Prod.snd := by
  induction rec with
  | nil => rfl
  | cons kv rest ih =>
    obtain ⟨k, v⟩ := kv
    have hk : k ∉ keysOf rest := by
      have := hnd
      simp only [keysOf, List.map_cons, List.nodup_cons] at this
      exact this.1
    have hndr : (keysOf rest).Nodup := by
      have := hnd
      simp only [keysOf, List.map_cons, List.nodup_cons] at this
      exact this.2
    show (assocLookup ((k, v) :: rest) k).getD [] ::
        (keysOf rest).map (fun key => (assocLookup ((k, v) :: rest) key).getD []) =
      v :: rest.map Prod.snd
    rw [assocLookup_cons_self]
    have hmap : (keysOf rest).map (fun key => (assocLookup ((k, v) :: rest) key).getD []) =
        (keysOf rest).map (fun key => (assocLookup rest key).getD []) := by
      apply List.map_congr_left
      intro key hkey
      rw [assocLookup_cons_ne k key v rest (fun he => hk (he ▸ hkey))]
    rw [hmap]
    exact congrArg (v :: ·) (ih hndr)

theorem toLoadedRec_full (fns row : List Str) (hlen : row.length = fns.length) :
    toLoadedRec fns row = (fns.zip (row.map some), none) := by
  simp [toLoadedRec, hlen]

theorem zip_keys_some_values (rec : CsvRec) :
    (keysOf rec).zip ((rec.map Prod.snd).map some) =
      rec.map (fun kv => (kv.1, some kv.2)) := by
  induction rec with
  | nil => rfl
  | cons kv rest ih =>
    obtain ⟨k, v⟩ := kv
    show (k, some v) :: (keysOf rest).zip ((rest.map Prod.snd).map some) = _
    rw [ih]
    rfl

/-- Well-formedness of a record sequence handed to the delimited-table codec:
at least one column, distinct column names, every record has exactly the
header's keys in the header's order, and no raw carriage returns (which the
read-side universal-newline translation would rewrite). -/
def CsvWf (data : List CsvRec) : Prop :=
  keysOf (data.headD []) ≠ [] ∧ (keysOf (data.headD [])).Nodup ∧
    ∀ rec ∈ data, keysOf rec = keysOf (data.headD []) ∧
      ∀ kv ∈ rec, noCR kv.1 ∧ noCR kv.2

instance (data : List CsvRec) : Decidable (CsvWf data) := by
  unfold CsvWf; infer_instance

/-- Round trip for the delimited-table codec: saving a non-empty well-formed
record sequence and loading it back yields the same records (every value
present, no rest cells). -/
theorem csv_save_load (data : List CsvRec) (file : Option Str) (hne : data ≠ [])
    (hwf : CsvWf data) :
    csv_load_data (csv_save_data data file) =
      data.map (fun rec => (rec.map (fun kv => (kv.1, some kv.2)), none)) := by
  obtain ⟨hfne, hnd, hrec⟩ := hwf
  set fns := keysOf (data.headD []) with hfns
  have hsave : csv_save_data data file = some (csv_render data) := by
    simp [csv_save_data, hne]
  rw [hsave]
  have hrender : csv_render data =
      concatL ((fns :: data.map (dict_to_list fns)).map writeRow) := by
    rw [List.map_cons, concatL_cons, List.map_map]
    rfl
  have hcrall : ∀ fs ∈ fns :: data.map (dict_to_list fns), ∀ f ∈ fs, noCR f := by
    intro fs hfs f hf
    rcases hfs with _ | ⟨_, hfs⟩
    · -- header row: fieldnames are keys of the first record
      cases data with
      | nil => exact absurd rfl hne
      | cons rec0 rest =>
        have h0 := hrec rec0 (by simp)
        have hf' : f ∈ rec0.map Prod.fst := by
          have : fns = keysOf rec0 := by simp [hfns]
          simpa [keysOf, this] using hf
        rcases List.mem_map.1 hf' with ⟨kv, hkv, rfl⟩
        exact (h0.2 kv hkv).1
    · rcases List.mem_map.1 hfs with ⟨rec, hr, rfl⟩
      have hk := (hrec rec hr).1
      rw [show dict_to_list fns rec = rec.map Prod.snd from by
            rw [← hk]; exact dict_to_list_eq rec (hk ▸ hnd)] at hf
      rcases List.mem_map.1 hf with ⟨kv, hkv, rfl⟩
      exact ((hrec rec hr).2 kv hkv).2
  have hcontent : univNewlines (csv_render data) =
      concatL ((fns :: data.map (dict_to_list fns)).map
        (fun fs => rowBody fs ++ ['\n'])) := by
    rw [hrender]
    exact univNewlines_concat_rows _ hcrall
  show dictread (pRecords _ _) = _
  rw [hcontent]
  have hrowsne : ∀ fs ∈ fns :: data.map (dict_to_list fns), fs ≠ [] ∧ ∀ f ∈ fs, noCR f := by
    intro fs hfs
    refine ⟨?_, hcrall fs hfs⟩
    rcases hfs with _ | ⟨_, hfs⟩
    · exact hfne
    · rcases List.mem_map.1 hfs with ⟨rec, _, rfl⟩
      intro hemp
      apply hfne
      have : (dict_to_list fns rec).length = fns.length := by
        simp [dict_to_list]
      rw [hemp] at this
      exact List.eq_nil_of_length_eq_zero this.symm
  have hlenle : (fns :: data.map (dict_to_list fns)).length ≤
      (concatL ((fns :: data.map (dict_to_list fns)).map
        (fun fs => rowBody fs ++ ['\n']))).length + 1 := by
    clear hrender hcontent hrowsne hcrall hrec hnd hfne hne
    generalize (fns :: data.map (dict_to_list fns)) = rows
    induction rows with
    | nil => simp
    | cons fs rows' ih =>
      rw [List.map_cons, concatL_cons]
      simp only [List.length_cons, List.length_append]
      simp only [List.length_cons] at ih
      simp
      omega
  rw [pRecords_rows _ hrowsne _ (by
    have := hlenle
    omega)]
  rw [show dictread (fns :: data.map (dict_to_list fns)) =
        ((data.map (dict_to_list fns)).filter (· ≠ [])).map (toLoadedRec fns) from by
      simp [dictread, hfne]]
  have hfilter : (data.map (dict_to_list fns)).filter (· ≠ []) =
      data.map (dict_to_list fns) := by
    apply List.filter_eq_self.2
    intro row hrow
    rcases List.mem_map.1 hrow with ⟨rec, hr, rfl⟩
    have := (hrowsne (dict_to_list fns rec) (by
      exact List.mem_cons_of_mem fns (List.mem_map.2 ⟨rec, hr, rfl⟩))).1
    simpa using this
  rw [hfilter, List.map_map]
  apply List.map_congr_left
  intro rec hr
  have hk := (hrec rec hr).1
  have hdtl : dict_to_list fns rec = rec.map Prod.snd := by
    rw [← hk]; exact dict_to_list_eq rec (hk ▸ hnd)
  show toLoadedRec fns (dict_to_list fns rec) = _
  rw [hdtl, toLoadedRec_full fns _ (by rw [← hk]; simp [keysOf]), ← hk,
      zip_keys_some_values]

/-! ### Structured-record (JSON) codec (src/file_handler.py: JSONFileHandler).

`save_data` is `json.dump(data, handle, indent=4, ensure_ascii=False)`;
`load_data` is `json.load(handle)` degrading to `{}` on parse errors or a
missing file.  JSON values are modelled by `JValue`; numbers are restricted
to integers (the repository's `year` field; machine floats are not
representable in the model, see the header note). -/

inductive JValue where
  | null
  | bool (b : Bool)
  | int (n : Int)
  | str (s : Str)
  | arr (elems : List JValue)
  | obj (fields : List (Str × JValue))

instance : Inhabited JValue := ⟨JValue.null⟩

/-- Decimal digit character. -/
def digitCh (k : Nat) : Char :=
  match k with
  | 0 => '0' | 1 => '1' | 2 => '2' | 3 => '3' | 4 => '4'
  | 5 => '5' | 6 => '6' | 7 => '7' | 8 => '8' | _ => '9'

/-- Hexadecimal digit character (lowercase, as CPython's json emits). -/
def hexCh (k : Nat) : Char :=
  match k with
  | 0 => '0' | 1 => '1' | 2 => '2' | 3 => '3' | 4 => '4'
  | 5 => '5' | 6 => '6' | 7 => '7' | 8 => '8' | 9 => '9'
  | 10 => 'a' | 11 => 'b' | 12 => 'c' | 13 => 'd' | 14 => 'e' | _ => 'f'

/-- Decimal digits of a natural number, most significant first (fuel-guided:
each step divides by ten, so `n + 1` units always suffice). -/
def natToCharsF : Nat → Nat → Str
  | 0, _ => []
  | fuel + 1, n =>
    if n < 10 then [digitCh n]
    else natToCharsF fuel (n / 10) ++ [digitCh (n % 10)]

def natToChars (n : Nat) : Str := natToCharsF (n + 1) n

/-- Python's decimal rendering of an integer. -/
def intToChars (n : Int) : Str :=
  if n < 0 then '-' :: natToChars n.natAbs else natToChars n.toNat

/-- One character of a JSON string literal with `ensure_ascii=False`: escape
the quote, the backslash and control characters (with the short forms CPython
uses), everything else verbatim. -/
def escChar (c : Char) : Str :=
  if c = '"' then ['\\', '"']
  else if c = '\\' then ['\\', '\\']
  else if c = '\n' then ['\\', 'n']
  else if c = '\r' then ['\\', 'r']
  else if c = '\t' then ['\\', 't']
  else if c = '\x08' then ['\\', 'b']
  else if c = '\x0c' then ['\\', 'f']
  else if c.toNat < 0x20 then
    ['\\', 'u', '0', '0', hexCh (c.toNat / 16), hexCh (c.toNat % 16)]
  else [c]

def escStr : Str → Str
  | [] => []
  | c :: r => escChar c ++ escStr r

/-- A JSON string literal. -/
def quoteJ (s : Str) : Str := '"' :: escStr s ++ ['"']

/-- Indentation for nesting depth `d` with `indent=4`. -/
def padJ (d : Nat) : Str := List.replicate (4 * d) ' '

mutual

/-- `json.dump` with `indent=4, ensure_ascii=False` at nesting depth `d`. -/
def dumpV : Nat → JValue → Str
  | _, .null => ['n', 'u', 'l', 'l']
  | _, .bool true => ['t', 'r', 'u', 'e']
  | _, .bool false => ['f', 'a', 'l', 's', 'e']
  | _, .int n => intToChars n
  | _, .str s => quoteJ s
  | _, .arr [] => ['[', ']']
  | d, .arr (e :: es) =>
    '[' :: '\n' :: (padJ (d + 1) ++ dumpV (d + 1) e ++ dumpItems (d + 1) es
      ++ '\n' :: padJ d ++ [']'])
  | _, .obj [] => ['\x7b', '\x7d']
  | d, .obj (kv :: kvs) =>
    '\x7b' :: '\n' :: (padJ (d + 1) ++ quoteJ kv.1 ++ ':' :: ' ' :: dumpV (d + 1) kv.2
      ++ dumpFields (d + 1) kvs ++ '\n' :: padJ d ++ ['\x7d'])

/-- The remaining array items, each preceded by `,\n` and indentation. -/
def dumpItems : Nat → List JValue → Str
  | _, [] => []
  | d, e :: es => ',' :: '\n' :: (padJ d ++ dumpV d e ++ dumpItems d es)

/-- The remaining object entries, each preceded by `,\n` and indentation. -/
def dumpFields : Nat → List (Str × JValue) → Str
  | _, [] => []
  | d, kv :: kvs =>
    ',' :: '\n' :: (padJ d ++ quoteJ kv.1 ++ ':' :: ' ' :: dumpV d kv.2 ++ dumpFields d kvs)

end

/-- `JSONFileHandler.save_data` produces this file content. -/
def json_save_data (v : JValue) : Str := dumpV 0 v

mutual

/-- Python dicts cannot hold duplicate keys: well-formed values have distinct
keys in every object. -/
def wfV : JValue → Bool
  | .null | .bool _ | .int _ | .str _ => true
  | .arr es => wfL es
  | .obj fs => ((fs.map Prod.fst).Nodup : Bool) && wfF fs

def wfL : List JValue → Bool
  | [] => true
  | e :: es => wfV e && wfL es

def wfF : List (Str × JValue) → Bool
  | [] => true
  | kv :: kvs => wfV kv.2 && wfF kvs

end

mutual

/-- Fuel measure for the parser: one unit per value and per list step. -/
def jsizeV : JValue → Nat
  | .null | .bool _ | .int _ | .str _ => 1
  | .arr [] => 1
  | .arr (e :: es) => 1 + jsizeV e + jsizeL es
  | .obj [] => 1
  | .obj (kv :: kvs) => 1 + jsizeV kv.2 + jsizeF kvs

def jsizeL : List JValue → Nat
  | [] => 1
  | e :: es => 1 + jsizeV e + jsizeL es

def jsizeF : List (Str × JValue) → Nat
  | [] => 1
  | kv :: kvs => 1 + jsizeV kv.2 + jsizeF kvs

end

/-- JSON whitespace accepted between tokens. -/
def isJsonWs (c : Char) : Bool :=
  c = ' ' || c = '\t' || c = '\n' || c = '\r'

def skipWs (cs : Str) : Str := cs.dropWhile isJsonWs

def isDigitCh (c : Char) : Bool := 48 ≤ c.toNat && c.toNat ≤ 57

/-- Numeric value of a run of decimal digits. -/
def natFromChars (ds : Str) : Nat := ds.foldl (fun a c => 10 * a + (c.toNat - 48)) 0

/-- Parse a JSON number token.  JSON integers are `0` or a nonzero leading
digit followed by more digits; a fraction or exponent marks a float, which the
integral model rejects (never produced by the embedded printer). -/
def parseNatTok : Str → Option (Nat × Str)
  | [] => none
  | c :: r =>
    if ¬ isDigitCh c then none
    else
      let ds := if c = '0' then [c] else c :: r.takeWhile isDigitCh
      let rest := if c = '0' then r else r.dropWhile isDigitCh
      match rest with
      | x :: _ =>
        if x = '.' ∨ x = 'e' ∨ x = 'E' then none else some (natFromChars ds, rest)
      | [] => some (natFromChars ds, rest)

def parseIntTok (cs : Str) : Option (Int × Str) :=
  match cs with
  | '-' :: r => (parseNatTok r).map (fun p => (-(p.1 : Int), p.2))
  | r => (parseNatTok r).map (fun p => ((p.1 : Int), p.2))

/-- Value of a hexadecimal digit (15 for malformed input; the caller only
reaches this after the character passed `isHexCh`). -/
def isHexCh (c : Char) : Bool :=
  (48 ≤ c.toNat && c.toNat ≤ 57) || (97 ≤ c.toNat && c.toNat ≤ 102) ||
    (65 ≤ c.toNat && c.toNat ≤ 70)

def hexVal (c : Char) : Nat :=
  if 48 ≤ c.toNat && c.toNat ≤ 57 then c.toNat - 48
  else if 97 ≤ c.toNat && c.toNat ≤ 102 then c.toNat - 87
  else c.toNat - 55

/-- Short escapes accepted after a backslash. -/
def decodeEsc (e : Char) : Option Char :=
  if e = '"' then some '"'
  else if e = '\\' then some '\\'
  else if e = '/' then some '/'
  else if e = 'b' then some '\x08'
  else if e = 'f' then some '\x0c'
  else if e = 'n' then some '\n'
  else if e = 'r' then some '\r'
  else if e = 't' then some '\t'
  else none

/-- Read four hexadecimal digits. -/
def parseHex4 : Str → Option (Nat × Str)
  | h1 :: h2 :: h3 :: h4 :: r =>
    if isHexCh h1 && isHexCh h2 && isHexCh h3 && isHexCh h4 then
      some (((hexVal h1 * 16 + hexVal h2) * 16 + hexVal h3) * 16 + hexVal h4, r)
    else none
  | _ => none

/-- Parse the body of a JSON string literal after the opening quote (strict
mode: raw control characters are rejected).  A `\uXXXX` escape must denote a
scalar value representable as a `Char` (CPython also accepts lone surrogates,
which `Char` cannot hold; the printer never emits them).  The fuel is one
unit per consumed character, so length-plus-one always suffices. -/
def parseJStringF : Nat → Str → Option (Str × Str)
  | 0, _ => none
  | fuel + 1, cs =>
    match cs with
    | [] => none
    | c :: r =>
      if c = '"' then some ([], r)
      else if c = '\\' then
        match r with
        | [] => none
        | e :: r2 =>
          if e = 'u' then
            match parseHex4 r2 with
            | none => none
            | some (code, r3) =>
              if code.isValidChar then
                (parseJStringF fuel r3).map (fun p => (Char.ofNat code :: p.1, p.2))
              else none
          else
            match decodeEsc e with
            | some c2 => (parseJStringF fuel r2).map (fun p => (c2 :: p.1, p.2))
            | none => none
      else if c.toNat < 0x20 then none
      else (parseJStringF fuel r).map (fun p => (c :: p.1, p.2))

def parseJString (cs : Str) : Option (Str × Str) := parseJStringF (cs.length + 1) cs

/-- Insert a key into a Python dict modelled as an association list: an
existing key keeps its position and takes the new value, a new key is
appended. -/
def dictInsertJ (fields : List (Str × JValue)) (k : Str) (v : JValue) :
    List (Str × JValue) :=
  if (fields.map Prod.fst).contains k then
    fields.map (fun kv => if kv.1 = k then (k, v) else kv)
  else fields ++ [(k, v)]

/-- Build a Python dict from parsed key-value pairs (duplicate keys: last
value wins, first position kept). -/
def dedupJ (pairs : List (Str × JValue)) : List (Str × JValue) :=
  pairs.foldl (fun acc kv => dictInsertJ acc kv.1 kv.2) []

mutual

/-- The recursive-descent JSON value scanner (`json.load`), with fuel bounding
the recursion depth (one unit per value and per element step; the top-level
call supplies more fuel than any input can consume). -/
def parseVal : Nat → Str → Option (JValue × Str)
  | 0, _ => none
  | fuel + 1, cs =>
    match skipWs cs with
    | [] => none
    | c :: r =>
      if c = 'n' then
        match r with
        | 'u' :: 'l' :: 'l' :: r2 => some (.null, r2)
        | _ => none
      else if c = 't' then
        match r with
        | 'r' :: 'u' :: 'e' :: r2 => some (.bool true, r2)
        | _ => none
      else if c = 'f' then
        match r with
        | 'a' :: 'l' :: 's' :: 'e' :: r2 => some (.bool false, r2)
        | _ => none
      else if c = '"' then
        (parseJString r).map (fun p => (.str p.1, p.2))
      else if c = '[' then
        match skipWs r with
        | [] => none
        | c2 :: r2 =>
          if c2 = ']' then some (.arr [], r2)
          else
            match parseVal fuel (c2 :: r2) with
            | none => none
            | some (e, r3) =>
              match parseItems fuel r3 with
              | none => none
              | some (es, r4) => some (.arr (e :: es), r4)
      else if c = '\x7b' then
        match skipWs r with
        | [] => none
        | c2 :: r2 =>
          if c2 = '\x7d' then some (.obj [], r2)
          else if c2 = '"' then
            match parseJString r2 with
            | none => none
            | some (k, r3) =>
              match skipWs r3 with
              | ':' :: r4 =>
                match parseVal fuel r4 with
                | none => none
                | some (v, r5) =>
                  match parseFields fuel r5 with
                  | none => none
                  | some (kvs, r6) => some (.obj (dedupJ ((k, v) :: kvs)), r6)
              | _ => none
          else none
      else if c = '-' ∨ isDigitCh c then
        (parseIntTok (c :: r)).map (fun p => (.int p.1, p.2))
      else none

/-- After the first array element: a comma continues, a bracket closes. -/
def parseItems : Nat → Str → Option (List JValue × Str)
  | 0, _ => none
  | fuel + 1, cs =>
    match skipWs cs with
    | [] => none
    | c :: r =>
      if c = ',' then
        match parseVal fuel r with
        | none => none
        | some (e, r2) =>
          match parseItems fuel r2 with
          | none => none
          | some (es, r3) => some (e :: es, r3)
      else if c = ']' then some ([], r)
      else none

/-- After the first object entry: a comma continues, a brace closes. -/
def parseFields : Nat → Str → Option (List (Str × JValue) × Str)
  | 0, _ => none
  | fuel + 1, cs =>
    match skipWs cs with
    | [] => none
    | c :: r =>
      if c = ',' then
        match skipWs r with
        | '"' :: r2 =>
          match parseJString r2 with
          | none => none
          | some (k, r3) =>
            match skipWs r3 with
            | ':' :: r4 =>
              match parseVal fuel r4 with
              | none => none
              | some (v, r5) =>
                match parseFields fuel r5 with
                | none => none
                | some (kvs, r6) => some ((k, v) :: kvs, r6)
            | _ => none
        | _ => none
      else if c = '\x7d' then some ([], r)
      else none

end

/-- `json.load` on file content: universal-newline read, one value, nothing
but whitespace after it. -/
def jsonParse (content : Str) : Option JValue :=
  let cs := univNewlines content
  match parseVal (cs.length + 1) cs with
  | some (v, rest) => if skipWs rest = [] then some v else none
  | none => none

/-- `JSONFileHandler.load_data`: `{}` for a missing file and on parse errors
(the error is printed and an empty mapping returned). -/
def json_load_data (file : Option Str) : JValue :=
  match file with
  | none => .obj []
  | some content => (jsonParse content).getD (.obj [])

/-! ### JSON round-trip lemmas -/

theorem digitCh_toNat {k : Nat} (h : k < 10) : (digitCh k).toNat = 48 + k := by
  interval_cases k <;> rfl

theorem isDigitCh_digitCh {k : Nat} (h : k < 10) : isDigitCh (digitCh k) = true := by
  interval_cases k <;> rfl

theorem digitCh_ne_zero {k : Nat} (h1 : 1 ≤ k) (h2 : k < 10) : digitCh k ≠ '0' := by
  interval_cases k <;> simp [digitCh]

theorem not_isJsonWs_of_isDigitCh {c : Char} (h : isDigitCh c = true) :
    ¬ isJsonWs c = true := by
  intro hws
  simp only [isDigitCh, Bool.and_eq_true, decide_eq_true_eq] at h
  simp only [isJsonWs, Bool.or_eq_true, decide_eq_true_eq] at hws
  rcases hws with ((h1 | h2) | h3) | h4 <;> subst_vars <;> exact absurd h (by decide)

theorem skipWs_cons_not_ws (c : Char) (r : Str) (h : ¬ isJsonWs c = true) :
    skipWs (c :: r) = c :: r := by
  simp [skipWs, List.dropWhile_cons, h]

theorem skipWs_ws_front (p x : Str) (h : ∀ c ∈ p, isJsonWs c = true) :
    skipWs (p ++ x) = skipWs x := by
  induction p with
  | nil => rfl
  | cons c r ih =>
    rw [List.cons_append]
    show skipWs (c :: (r ++ x)) = skipWs x
    rw [show skipWs (c :: (r ++ x)) = skipWs (r ++ x) from by
          simp [skipWs, List.dropWhile_cons, h c (by simp)]]
    exact ih (fun d hd => h d (List.mem_cons_of_mem c hd))

theorem allWs_pad (d : Nat) : ∀ c ∈ padJ d, isJsonWs c = true := by
  intro c hc
  rw [List.eq_of_mem_replicate hc]
  rfl

theorem takeWhile_append_all {p : Char → Bool} (xs ys : Str)
    (h : ∀ x ∈ xs, p x = true) :
    (xs ++ ys).takeWhile p = xs ++ ys.takeWhile p := by
  induction xs with
  | nil => rfl
  | cons c r ih =>
    rw [List.cons_append, List.takeWhile_cons, if_pos (h c (by simp)),
        ih (fun x hx => h x (List.mem_cons_of_mem c hx))]
    rfl

theorem dropWhile_append_all {p : Char → Bool} (xs ys : Str)
    (h : ∀ x ∈ xs, p x = true) :
    (xs ++ ys).dropWhile p = ys.dropWhile p := by
  induction xs with
  | nil => rfl
  | cons c r ih =>
    rw [List.cons_append, List.dropWhile_cons, if_pos (h c (by simp))]
    exact ih (fun x hx => h x (List.mem_cons_of_mem c hx))

/-- The tail a parsed value is followed by, in printed output: nothing (top
level), a separating comma, or the newline before a closing bracket. -/
def SafeRest (rest : Str) : Prop :=
  rest = [] ∨ ∃ r, rest = ',' :: r ∨ rest = '\n' :: r

theorem safeRest_takeWhile_digits {rest : Str} (h : SafeRest rest) :
    rest.takeWhile isDigitCh = [] ∧ rest.dropWhile isDigitCh = rest := by
  rcases h with rfl | ⟨r, rfl | rfl⟩ <;> simp [List.takeWhile_cons, List.dropWhile_cons, isDigitCh]

theorem natToCharsF_irrel (n : Nat) :
    ∀ fuel fuel', n < fuel → n < fuel' → natToCharsF fuel n = natToCharsF fuel' n := by
  induction n using Nat.strong_induction_on with
  | _ n ih =>
    intro fuel fuel' hf hf'
    cases fuel with
    | zero => omega
    | succ g =>
      cases fuel' with
      | zero => omega
      | succ g' =>
        show (if n < 10 then [digitCh n] else natToCharsF g (n / 10) ++ [digitCh (n % 10)]) =
          (if n < 10 then [digitCh n] else natToCharsF g' (n / 10) ++ [digitCh (n % 10)])
        by_cases h10 : n < 10
        · rw [if_pos h10, if_pos h10]
        · rw [if_neg h10, if_neg h10,
              ih (n / 10) (Nat.div_lt_self (by omega) (by omega)) g g' (by
                have := Nat.div_lt_self (show 0 < n by omega) (show 1 < 10 by omega)
                omega) (by
                have := Nat.div_lt_self (show 0 < n by omega) (show 1 < 10 by omega)
                omega)]

/-- The defining recurrence of `natToChars`, recovered from the fueled form. -/
theorem natToChars_eq (n : Nat) :
    natToChars n = if n < 10 then [digitCh n]
      else natToChars (n / 10) ++ [digitCh (n % 10)] := by
  show natToCharsF (n + 1) n = _
  by_cases h10 : n < 10
  · rw [show natToCharsF (n + 1) n =
        (if n < 10 then [digitCh n] else natToCharsF n (n / 10) ++ [digitCh (n % 10)]) from rfl,
      if_pos h10, if_pos h10]
  · have hd : n / 10 < n := Nat.div_lt_self (by omega) (by omega)
    rw [show natToCharsF (n + 1) n =
        (if n < 10 then [digitCh n] else natToCharsF n (n / 10) ++ [digitCh (n % 10)]) from rfl,
      if_neg h10, if_neg h10,
      natToCharsF_irrel (n / 10) n (n / 10 + 1) hd (by omega)]
    rfl

theorem natToChars_all_digits (n : Nat) : ∀ c ∈ natToChars n, isDigitCh c = true := by
  induction n using Nat.strong_induction_on with
  | _ n ih =>
    intro c hc
    rw [natToChars_eq] at hc
    by_cases h10 : n < 10
    · rw [if_pos h10] at hc
      simp only [List.mem_singleton] at hc
      exact hc ▸ isDigitCh_digitCh h10
    · rw [if_neg h10] at hc
      rcases List.mem_append.1 hc with hc | hc
      · exact ih (n / 10) (Nat.div_lt_self (by omega) (by omega)) c hc
      · simp only [List.mem_singleton] at hc
        exact hc ▸ isDigitCh_digitCh (Nat.mod_lt n (by omega))

theorem natToChars_shape (n : Nat) :
    ∃ c cs, natToChars n = c :: cs ∧ isDigitCh c = true ∧ (1 ≤ n → c ≠ '0') := by
  induction n using Nat.strong_induction_on with
  | _ n ih =>
    rw [natToChars_eq]
    by_cases h10 : n < 10
    · rw [if_pos h10]
      exact ⟨digitCh n, [], rfl, isDigitCh_digitCh h10,
        fun h1 => digitCh_ne_zero h1 h10⟩
    · rw [if_neg h10]
      obtain ⟨c, cs, heq, hdig, hz⟩ := ih (n / 10) (Nat.div_lt_self (by omega) (by omega))
      exact ⟨c, cs ++ [digitCh (n % 10)], by rw [heq]; rfl, hdig,
        fun _ => hz (by
          have : 10 ≤ n := by omega
          have := Nat.le_div_iff_mul_le (show 0 < 10 by omega) |>.2
            (show 1 * 10 ≤ n by omega)
          omega)⟩

theorem natFromChars_append (xs : Str) (c : Char) :
    natFromChars (xs ++ [c]) = 10 * natFromChars xs + (c.toNat - 48) := by
  simp [natFromChars, List.foldl_append]

theorem natFromChars_natToChars (n : Nat) : natFromChars (natToChars n) = n := by
  induction n using Nat.strong_induction_on with
  | _ n ih =>
    rw [natToChars_eq]
    by_cases h10 : n < 10
    · rw [if_pos h10]
      show natFromChars ([] ++ [digitCh n]) = n
      rw [natFromChars_append, digitCh_toNat h10]
      simp [natFromChars]
    · rw [if_neg h10, natFromChars_append,
          ih (n / 10) (Nat.div_lt_self (by omega) (by omega)),
          digitCh_toNat (Nat.mod_lt n (by omega))]
      omega

theorem parseNatTok_natToChars (n : Nat) (rest : Str) (hrest : SafeRest rest) :
    parseNatTok (natToChars n ++ rest) = some (n, rest) := by
  by_cases hn : n = 0
  · subst hn
    rw [show natToChars 0 = ['0'] from rfl]
    rcases hrest with rfl | ⟨r, rfl | rfl⟩
    · rfl
    · show parseNatTok ('0' :: ',' :: r) = some (0, ',' :: r)
      simp [parseNatTok, natFromChars, show isDigitCh '0' = true from by decide]
    · show parseNatTok ('0' :: '\n' :: r) = some (0, '\n' :: r)
      simp [parseNatTok, natFromChars, show isDigitCh '0' = true from by decide]
  · obtain ⟨c, cs, heq, hdig, hz⟩ := natToChars_shape n
    have hc0 : c ≠ '0' := hz (by omega)
    have hcsdig : ∀ x ∈ cs, isDigitCh x = true := by
      intro x hx
      exact natToChars_all_digits n x (by rw [heq]; exact List.mem_cons_of_mem c hx)
    have htake : (cs ++ rest).takeWhile isDigitCh = cs := by
      rw [takeWhile_append_all cs rest hcsdig, (safeRest_takeWhile_digits hrest).1]
      simp
    have hdrop : (cs ++ rest).dropWhile isDigitCh = rest := by
      rw [dropWhile_append_all cs rest hcsdig]
      exact (safeRest_takeWhile_digits hrest).2
    rw [heq, List.cons_append]
    show parseNatTok (c :: (cs ++ rest)) = some (n, rest)
    have hval : natFromChars (c :: cs) = n := by
      rw [← heq]; exact natFromChars_natToChars n
    simp only [parseNatTok, hdig, not_true_eq_false, if_false, if_neg hc0, htake, hdrop]
    rcases hrest with rfl | ⟨r, rfl | rfl⟩
    · simp [hval]
    · simp [hval]
    · simp [hval]

theorem parseIntTok_of_head_ne (c : Char) (r : Str) (h : c ≠ '-') :
    parseIntTok (c :: r) = (parseNatTok (c :: r)).map (fun p => ((p.1 : Int), p.2)) := by
  unfold parseIntTok
  split
  · rename_i heq
    injection heq with h1 _
    exact absurd h1 h
  · rfl

theorem parseIntTok_intToChars (n : Int) (rest : Str) (hrest : SafeRest rest) :
    parseIntTok (intToChars n ++ rest) = some (n, rest) := by
  by_cases hneg : n < 0
  · rw [show intToChars n = '-' :: natToChars n.natAbs from by
        simp [intToChars, hneg]]
    show parseIntTok ('-' :: (natToChars n.natAbs ++ rest)) = some (n, rest)
    have : parseIntTok ('-' :: (natToChars n.natAbs ++ rest)) =
        (parseNatTok (natToChars n.natAbs ++ rest)).map
          (fun p => (-(p.1 : Int), p.2)) := rfl
    rw [this, parseNatTok_natToChars n.natAbs rest hrest]
    simp only [Option.map_some']
    congr 1
    refine Prod.ext ?_ rfl
    show -(n.natAbs : Int) = n
    omega
  · rw [show intToChars n = natToChars n.toNat from by
        simp [intToChars, hneg]]
    obtain ⟨c, cs, heq, hdig, _⟩ := natToChars_shape n.toNat
    have hcm : c ≠ '-' := by
      intro he
      subst he
      simp only [isDigitCh, Bool.and_eq_true, decide_eq_true_eq] at hdig
      exact absurd hdig (by decide)
    rw [heq, List.cons_append, parseIntTok_of_head_ne c _ hcm, ← List.cons_append, ← heq,
        parseNatTok_natToChars n.toNat rest hrest]
    simp only [Option.map_some']
    congr 1
    refine Prod.ext ?_ rfl
    show ((n.toNat : Nat) : Int) = n
    omega

theorem isHexCh_hexCh {k : Nat} (h : k < 16) : isHexCh (hexCh k) = true := by
  interval_cases k <;> decide

theorem hexVal_hexCh {k : Nat} (h : k < 16) : hexVal (hexCh k) = k := by
  interval_cases k <;> decide

/-- The string-literal scanner undoes the escape encoding (fueled form). -/
theorem parseJStringF_escStr (s : Str) :
    ∀ fuel rest, (escStr s).length < fuel →
      parseJStringF fuel (escStr s ++ '"' :: rest) = some (s, rest) := by
  induction s with
  | nil =>
    intro fuel rest hf
    cases fuel with
    | zero => simp at hf
    | succ g =>
      show parseJStringF (g + 1) ('"' :: rest) = some ([], rest)
      simp [parseJStringF]
  | cons c s' ih =>
    intro fuel rest hf
    rw [show escStr (c :: s') = escChar c ++ escStr s' from rfl] at hf ⊢
    rw [List.append_assoc]
    by_cases hq : c = '"'
    · subst hq
      rw [show escChar '"' = ['\\', '"'] from rfl] at hf ⊢
      cases fuel with
      | zero => simp at hf
      | succ g =>
        have hg : (escStr s').length < g := by
          simp only [List.length_append, List.length_cons] at hf
          omega
        show parseJStringF (g + 1) ('\\' :: '"' :: (escStr s' ++ '"' :: rest)) = _
        simp [parseJStringF, decodeEsc, ih g rest hg]
    · by_cases hb : c = '\\'
      · subst hb
        rw [show escChar '\\' = ['\\', '\\'] from rfl] at hf ⊢
        cases fuel with
        | zero => simp at hf
        | succ g =>
          have hg : (escStr s').length < g := by
            simp only [List.length_append, List.length_cons] at hf
            omega
          show parseJStringF (g + 1) ('\\' :: '\\' :: (escStr s' ++ '"' :: rest)) = _
          simp [parseJStringF, decodeEsc, ih g rest hg]
      · by_cases hn : c = '\n'
        · subst hn
          rw [show escChar '\n' = ['\\', 'n'] from rfl] at hf ⊢
          cases fuel with
          | zero => simp at hf
          | succ g =>
            have hg : (escStr s').length < g := by
              simp only [List.length_append, List.length_cons] at hf
              omega
            show parseJStringF (g + 1) ('\\' :: 'n' :: (escStr s' ++ '"' :: rest)) = _
            simp [parseJStringF, decodeEsc, ih g rest hg]
        · by_cases hr : c = '\r'
          · subst hr
            rw [show escChar '\r' = ['\\', 'r'] from rfl] at hf ⊢
            cases fuel with
            | zero => simp at hf
            | succ g =>
              have hg : (escStr s').length < g := by
                simp only [List.length_append, List.length_cons] at hf
                omega
              show parseJStringF (g + 1) ('\\' :: 'r' :: (escStr s' ++ '"' :: rest)) = _
              simp [parseJStringF, decodeEsc, ih g rest hg]
          · by_cases ht : c = '\t'
            · subst ht
              rw [show escChar '\t' = ['\\', 't'] from rfl] at hf ⊢
              cases fuel with
              | zero => simp at hf
              | succ g =>
                have hg : (escStr s').length < g := by
                  simp only [List.length_append, List.length_cons] at hf
                  omega
                show parseJStringF (g + 1) ('\\' :: 't' :: (escStr s' ++ '"' :: rest)) = _
                simp [parseJStringF, decodeEsc, ih g rest hg]
            · by_cases h08 : c = '\x08'
              · subst h08
                rw [show escChar '\x08' = ['\\', 'b'] from rfl] at hf ⊢
                cases fuel with
                | zero => simp at hf
                | succ g =>
                  have hg : (escStr s').length < g := by
                    simp only [List.length_append, List.length_cons] at hf
                    omega
                  show parseJStringF (g + 1) ('\\' :: 'b' :: (escStr s' ++ '"' :: rest)) = _
                  simp [parseJStringF, decodeEsc, ih g rest hg]
              · by_cases h0c : c = '\x0c'
                · subst h0c
                  rw [show escChar '\x0c' = ['\\', 'f'] from rfl] at hf ⊢
                  cases fuel with
                  | zero => simp at hf
                  | succ g =>
                    have hg : (escStr s').length < g := by
                      simp only [List.length_append, List.length_cons] at hf
                      omega
                    show parseJStringF (g + 1) ('\\' :: 'f' :: (escStr s' ++ '"' :: rest)) = _
                    simp [parseJStringF, decodeEsc, ih g rest hg]
                · by_cases hlt : c.toNat < 0x20
                  · have hesc : escChar c =
                        ['\\', 'u', '0', '0', hexCh (c.toNat / 16), hexCh (c.toNat % 16)] := by
                      simp [escChar, hq, hb, hn, hr, ht, h08, h0c, hlt]
                    rw [hesc] at hf ⊢
                    cases fuel with
                    | zero => simp at hf
                    | succ g =>
                      have hg : (escStr s').length < g := by
                        simp only [List.length_append, List.length_cons] at hf
                        omega
                      have hdiv : c.toNat / 16 < 16 := by omega
                      have hmod : c.toNat % 16 < 16 := by omega
                      have hhex4 : parseHex4 ('0' :: '0' :: hexCh (c.toNat / 16) ::
                          hexCh (c.toNat % 16) :: (escStr s' ++ '"' :: rest)) =
                          some (c.toNat, escStr s' ++ '"' :: rest) := by
                        have hx : (isHexCh '0' && isHexCh '0' && isHexCh (hexCh (c.toNat / 16)) &&
                            isHexCh (hexCh (c.toNat % 16))) = true := by
                          rw [isHexCh_hexCh hdiv, isHexCh_hexCh hmod]
                          decide
                        simp only [parseHex4, hx, if_true]
                        rw [hexVal_hexCh hdiv, hexVal_hexCh hmod]
                        have h0 : hexVal '0' = 0 := by decide
                        rw [h0]
                        congr 1
                        refine Prod.ext ?_ rfl
                        show ((0 * 16 + 0) * 16 + c.toNat / 16) * 16 + c.toNat % 16 = c.toNat
                        omega
                      have hvalid : (c.toNat).isValidChar = True := by
                        simp [Nat.isValidChar]
                        omega
                      show parseJStringF (g + 1) ('\\' :: 'u' :: '0' :: '0' ::
                          hexCh (c.toNat / 16) :: hexCh (c.toNat % 16) ::
                          (escStr s' ++ '"' :: rest)) = _
                      simp [parseJStringF, hhex4, hvalid, ih g rest hg, Char.ofNat_toNat]
                  · have hesc : escChar c = [c] := by
                      simp [escChar, hq, hb, hn, hr, ht, h08, h0c, hlt]
                    rw [hesc] at hf ⊢
                    cases fuel with
                    | zero => simp at hf
                    | succ g =>
                      have hg : (escStr s').length < g := by
                        simp only [List.length_append, List.length_cons] at hf
                        omega
                      show parseJStringF (g + 1) (c :: (escStr s' ++ '"' :: rest)) = _
                      simp only [parseJStringF, if_neg hq, if_neg hb, if_neg hlt,
                        ih g rest hg, Option.map_some']

/-- The string-literal scanner undoes the escape encoding. -/
theorem parseJString_escStr (s : Str) (rest : Str) :
    parseJString (escStr s ++ '"' :: rest) = some (s, rest) := by
  unfold parseJString
  apply parseJStringF_escStr
  simp only [List.length_append, List.length_cons]
  omega

theorem intToChars_shape (n : Int) :
    ∃ c cs, intToChars n = c :: cs ∧ (c = '-' ∨ isDigitCh c = true) := by
  by_cases hneg : n < 0
  · exact ⟨'-', natToChars n.natAbs, by simp [intToChars, hneg], Or.inl rfl⟩
  · obtain ⟨c, cs, heq, hdig, _⟩ := natToChars_shape n.toNat
    exact ⟨c, cs, by simp [intToChars, hneg, heq], Or.inr hdig⟩

/-- Character facts about the first character of a printed number. -/
theorem int_head_facts {c : Char} (h : c = '-' ∨ isDigitCh c = true) :
    c ≠ 'n' ∧ c ≠ 't' ∧ c ≠ 'f' ∧ c ≠ '"' ∧ c ≠ '[' ∧ c ≠ '\x7b' ∧
      ¬ isJsonWs c = true ∧ c ≠ ']' ∧ c ≠ '\x7d' := by
  rcases h with rfl | hdig
  · refine ⟨by decide, by decide, by decide, by decide, by decide, by decide,
      by decide, by decide, by decide⟩
  · simp only [isDigitCh, Bool.and_eq_true, decide_eq_true_eq] at hdig
    refine ⟨?_, ?_, ?_, ?_, ?_, ?_, not_isJsonWs_of_isDigitCh (by
        simp only [isDigitCh, Bool.and_eq_true, decide_eq_true_eq]; exact hdig), ?_, ?_⟩
      <;> intro he <;> subst he <;> exact absurd hdig (by decide)

theorem dumpV_shape (d : Nat) (v : JValue) :
    ∃ hd tl, dumpV d v = hd :: tl ∧ ¬ isJsonWs hd = true ∧ hd ≠ ']' := by
  cases v with
  | null => exact ⟨'n', _, rfl, by decide, by decide⟩
  | bool b => cases b with
    | true => exact ⟨'t', _, rfl, by decide, by decide⟩
    | false => exact ⟨'f', _, rfl, by decide, by decide⟩
  | int n =>
    obtain ⟨c, cs, heq, hc⟩ := intToChars_shape n
    have hf := int_head_facts hc
    exact ⟨c, cs, by simp [dumpV, heq], hf.2.2.2.2.2.2.1, hf.2.2.2.2.2.2.2.1⟩
  | str s => exact ⟨'"', _, rfl, by decide, by decide⟩
  | arr es => cases es with
    | nil => exact ⟨'[', _, rfl, by decide, by decide⟩
    | cons e es' => exact ⟨'[', _, rfl, by decide, by decide⟩
  | obj fs => cases fs with
    | nil => exact ⟨'\x7b', _, rfl, by decide, by decide⟩
    | cons kv kvs => exact ⟨'\x7b', _, rfl, by decide, by decide⟩

theorem hexCh_ne_cr {k : Nat} (h : k < 16) : hexCh k ≠ '\r' := by
  interval_cases k <;> decide

theorem noCR_escChar (c : Char) : noCR (escChar c) := by
  intro x hx
  rintro rfl
  unfold escChar at hx
  split at hx
  · exact absurd hx (by decide)
  · split at hx
    · exact absurd hx (by decide)
    · split at hx
      · exact absurd hx (by decide)
      · split at hx
        · exact absurd hx (by decide)
        · split at hx
          · exact absurd hx (by decide)
          · split at hx
            · exact absurd hx (by decide)
            · split at hx
              · exact absurd hx (by decide)
              · split at hx
                · rename_i hlt
                  simp only [List.mem_cons, List.not_mem_nil, or_false] at hx
                  rcases hx with hx | hx | hx | hx | hx | hx
                  · exact absurd hx.symm (by decide)
                  · exact absurd hx.symm (by decide)
                  · exact absurd hx.symm (by decide)
                  · exact absurd hx.symm (by decide)
                  · exact hexCh_ne_cr (show c.toNat / 16 < 16 by omega) hx.symm
                  · exact hexCh_ne_cr (Nat.mod_lt _ (by omega)) hx.symm
                · rename_i hge
                  simp only [List.mem_cons, List.not_mem_nil, or_false] at hx
                  subst hx
                  exact hge (by decide)

theorem noCR_append {s t : Str} (hs : noCR s) (ht : noCR t) : noCR (s ++ t) := by
  intro x hx
  rcases List.mem_append.1 hx with hx | hx
  · exact hs x hx
  · exact ht x hx

theorem noCR_cons {c : Char} {s : Str} (hc : c ≠ '\r') (hs : noCR s) :
    noCR (c :: s) := by
  intro x hx
  rcases hx with _ | ⟨_, hx⟩
  · exact hc
  · exact hs x hx

theorem noCR_escStr (s : Str) : noCR (escStr s) := by
  induction s with
  | nil => intro x hx; simp [escStr] at hx
  | cons c s2 ih =>
    intro x hx
    rcases List.mem_append.1 hx with hx | hx
    · exact noCR_escChar c x hx
    · exact ih x hx

theorem noCR_quoteJ (s : Str) : noCR (quoteJ s) :=
  noCR_cons (by decide) (noCR_append (noCR_escStr s) (by decide))

theorem noCR_intToChars (n : Int) : noCR (intToChars n) := by
  have hdig : ∀ m : Nat, noCR (natToChars m) := by
    intro m x hx
    have := natToChars_all_digits m x hx
    intro he
    subst he
    exact absurd this (by decide)
  unfold intToChars
  split
  · exact noCR_cons (by decide) (hdig _)
  · exact hdig _

theorem noCR_padJ (d : Nat) : noCR (padJ d) := by
  intro x hx
  rw [List.eq_of_mem_replicate hx]
  decide

mutual

theorem noCR_dumpV : ∀ (d : Nat) (v : JValue), noCR (dumpV d v)
  | _, .null => by
    intro x hx
    rintro rfl
    simp only [dumpV] at hx
    exact absurd hx (by decide)
  | _, .bool true => by
    intro x hx
    rintro rfl
    simp only [dumpV] at hx
    exact absurd hx (by decide)
  | _, .bool false => by
    intro x hx
    rintro rfl
    simp only [dumpV] at hx
    exact absurd hx (by decide)
  | _, .int n => by
    intro x hx
    simp only [dumpV] at hx
    exact noCR_intToChars n x hx
  | _, .str s => by
    intro x hx
    simp only [dumpV] at hx
    exact noCR_quoteJ s x hx
  | _, .arr [] => by
    intro x hx
    rintro rfl
    simp only [dumpV] at hx
    exact absurd hx (by decide)
  | d, .arr (e :: es) => by
    simp only [dumpV]
    exact noCR_cons (by decide) (noCR_cons (by decide)
      (noCR_append (noCR_append (noCR_append (noCR_append
        (noCR_padJ (d + 1)) (noCR_dumpV (d + 1) e)) (noCR_dumpItems (d + 1) es))
        (noCR_cons (by decide) (noCR_padJ d))) (by decide)))
  | _, .obj [] => by
    intro x hx
    rintro rfl
    simp only [dumpV] at hx
    exact absurd hx (by decide)
  | d, .obj (kv :: kvs) => by
    simp only [dumpV]
    exact noCR_cons (by decide) (noCR_cons (by decide)
      (noCR_append (noCR_append (noCR_append (noCR_append (noCR_append
        (noCR_padJ (d + 1)) (noCR_quoteJ kv.1))
        (noCR_cons (by decide) (noCR_cons (by decide) (noCR_dumpV (d + 1) kv.2))))
        (noCR_dumpFields (d + 1) kvs))
        (noCR_cons (by decide) (noCR_padJ d))) (by decide)))

theorem noCR_dumpItems : ∀ (d : Nat) (es : List JValue), noCR (dumpItems d es)
  | _, [] => by
    intro x hx
    simp only [dumpItems] at hx
    simp at hx
  | d, e :: es => by
    simp only [dumpItems]
    exact noCR_cons (by decide) (noCR_cons (by decide)
      (noCR_append (noCR_append (noCR_padJ d) (noCR_dumpV d e))
        (noCR_dumpItems d es)))

theorem noCR_dumpFields : ∀ (d : Nat) (fs : List (Str × JValue)), noCR (dumpFields d fs)
  | _, [] => by
    intro x hx
    simp only [dumpFields] at hx
    simp at hx
  | d, kv :: kvs => by
    simp only [dumpFields]
    exact noCR_cons (by decide) (noCR_cons (by decide)
      (noCR_append (noCR_append (noCR_append (noCR_padJ d) (noCR_quoteJ kv.1))
        (noCR_cons (by decide) (noCR_cons (by decide) (noCR_dumpV d kv.2))))
        (noCR_dumpFields d kvs)))

end

theorem natToChars_ne_nil (n : Nat) : natToChars n ≠ [] := by
  obtain ⟨c, cs, heq, _, _⟩ := natToChars_shape n
  simp [heq]

mutual

theorem jsizeV_le : ∀ (d : Nat) (v : JValue), jsizeV v ≤ (dumpV d v).length
  | _, .null => by simp [jsizeV, dumpV]
  | _, .bool true => by simp [jsizeV, dumpV]
  | _, .bool false => by simp [jsizeV, dumpV]
  | d, .int n => by
    simp only [jsizeV, dumpV]
    obtain ⟨c, cs, heq, _⟩ := intToChars_shape n
    rw [heq]
    simp
  | _, .str s => by simp [jsizeV, dumpV, quoteJ]
  | _, .arr [] => by simp [jsizeV, dumpV]
  | d, .arr (e :: es) => by
    simp only [jsizeV, dumpV]
    have h1 := jsizeV_le (d + 1) e
    have h2 := jsizeL_le (d + 1) es
    simp only [List.length_cons, List.length_append]
    omega
  | _, .obj [] => by simp [jsizeV, dumpV]
  | d, .obj (kv :: kvs) => by
    simp only [jsizeV, dumpV]
    have h1 := jsizeV_le (d + 1) kv.2
    have h2 := jsizeF_le (d + 1) kvs
    simp only [List.length_cons, List.length_append]
    omega

theorem jsizeL_le : ∀ (d : Nat) (es : List JValue), jsizeL es ≤ (dumpItems d es).length + 1
  | _, [] => by simp [jsizeL, dumpItems]
  | d, e :: es => by
    simp only [jsizeL, dumpItems]
    have h1 := jsizeV_le d e
    have h2 := jsizeL_le d es
    simp only [List.length_cons, List.length_append]
    omega

theorem jsizeF_le : ∀ (d : Nat) (fs : List (Str × JValue)),
    jsizeF fs ≤ (dumpFields d fs).length + 1
  | _, [] => by simp [jsizeF, dumpFields]
  | d, kv :: kvs => by
    simp only [jsizeF, dumpFields]
    have h1 := jsizeV_le d kv.2
    have h2 := jsizeF_le d kvs
    simp only [List.length_cons, List.length_append]
    omega

end

theorem dictInsertJ_not_mem (fields : List (Str × JValue)) (k : Str) (v : JValue)
    (h : k ∉ fields.map Prod.fst) :
    dictInsertJ fields k v = fields ++ [(k, v)] := by
  unfold dictInsertJ
  rw [if_neg]
  intro hc
  exact h (by simpa [List.contains_iff_exists_mem_beq, List.mem_map] using hc)

/-- Building a dict from pairs with distinct keys keeps them unchanged. -/
theorem dedupJ_of_nodup (pairs : List (Str × JValue))
    (h : (pairs.map Prod.fst).Nodup) : dedupJ pairs = pairs := by
  suffices haux : ∀ acc : List (Str × JValue),
      (∀ k ∈ acc.map Prod.fst, k ∉ pairs.map Prod.fst) →
      pairs.foldl (fun a kv => dictInsertJ a kv.1 kv.2) acc = acc ++ pairs by
    simpa using haux [] (by simp)
  induction pairs with
  | nil => intro acc _; simp
  | cons kv rest ih =>
    intro acc hdisj
    have hk : kv.1 ∉ acc.map Prod.fst := by
      intro hc
      exact hdisj kv.1 hc (by simp)
    rw [List.foldl_cons, dictInsertJ_not_mem acc kv.1 kv.2 hk]
    have hnd : (rest.map Prod.fst).Nodup := by
      simp only [List.map_cons, List.nodup_cons] at h
      exact h.2
    have hknr : kv.1 ∉ rest.map Prod.fst := by
      simp only [List.map_cons, List.nodup_cons] at h
      exact h.1
    have hdisj2 : ∀ k ∈ (acc ++ [(kv.1, kv.2)]).map Prod.fst, k ∉ rest.map Prod.fst := by
      intro k hkm
      rw [List.map_append] at hkm
      rcases List.mem_append.1 hkm with hkm | hkm
      · exact fun hc => hdisj k hkm (List.mem_cons_of_mem _ hc)
      · simp only [List.map_cons, List.map_nil, List.mem_singleton] at hkm
        subst hkm
        exact hknr
    rw [ih hnd (acc ++ [(kv.1, kv.2)]) hdisj2]
    simp

theorem safeRest_items (d : Nat) (es : List JValue) (x : Str) :
    SafeRest (dumpItems d es ++ '\n' :: x) := by
  cases es with
  | nil => exact Or.inr ⟨x, Or.inr rfl⟩
  | cons e es' =>
    refine Or.inr ⟨('\n' :: (padJ d ++ dumpV d e ++ dumpItems d es')) ++ '\n' :: x,
      Or.inl ?_⟩
    simp [dumpItems]

theorem safeRest_fields (d : Nat) (fs : List (Str × JValue)) (x : Str) :
    SafeRest (dumpFields d fs ++ '\n' :: x) := by
  cases fs with
  | nil => exact Or.inr ⟨x, Or.inr rfl⟩
  | cons kv kvs =>
    refine Or.inr ⟨('\n' :: (padJ d ++ quoteJ kv.1 ++ ':' :: ' ' :: dumpV d kv.2
        ++ dumpFields d kvs)) ++ '\n' :: x, Or.inl ?_⟩
    simp [dumpFields]

theorem parseVal_ws_front (fuel : Nat) (p x : Str) (h : ∀ c ∈ p, isJsonWs c = true) :
    parseVal fuel (p ++ x) = parseVal fuel x := by
  cases fuel with
  | zero => rfl
  | succ g =>
    simp only [parseVal]
    rw [skipWs_ws_front p x h]

theorem jsizeV_pos (v : JValue) : 1 ≤ jsizeV v := by
  cases v with
  | arr es => cases es <;> (simp [jsizeV]; try omega)
  | obj fs => cases fs <;> (simp [jsizeV]; try omega)
  | _ => simp [jsizeV]

theorem jsizeL_pos (es : List JValue) : 1 ≤ jsizeL es := by
  cases es with
  | nil => simp [jsizeL]
  | cons e es' =>
    have := jsizeV_pos e
    simp [jsizeL]
    omega

theorem jsizeF_pos (fs : List (Str × JValue)) : 1 ≤ jsizeF fs := by
  cases fs with
  | nil => simp [jsizeF]
  | cons kv kvs =>
    have := jsizeV_pos kv.2
    simp [jsizeF]
    omega

mutual

/-- The scanner inverts the printer: parsing a printed value (followed by a
safe tail) returns the value. -/
theorem parseVal_dump : ∀ (v : JValue) (d fuel : Nat) (rest : Str),
    wfV v = true → jsizeV v ≤ fuel → SafeRest rest →
    parseVal fuel (dumpV d v ++ rest) = some (v, rest)
  | .null, d, fuel, rest => fun _ hfuel _ => by
    cases fuel with
    | zero => simp [jsizeV] at hfuel
    | succ g =>
      rw [show dumpV d .null = ['n', 'u', 'l', 'l'] from by simp [dumpV]]
      simp [parseVal, skipWs, List.dropWhile_cons, isJsonWs]
  | .bool true, d, fuel, rest => fun _ hfuel _ => by
    cases fuel with
    | zero => simp [jsizeV] at hfuel
    | succ g =>
      rw [show dumpV d (.bool true) = ['t', 'r', 'u', 'e'] from by simp [dumpV]]
      simp [parseVal, skipWs, List.dropWhile_cons, isJsonWs]
  | .bool false, d, fuel, rest => fun _ hfuel _ => by
    cases fuel with
    | zero => simp [jsizeV] at hfuel
    | succ g =>
      rw [show dumpV d (.bool false) = ['f', 'a', 'l', 's', 'e'] from by simp [dumpV]]
      simp [parseVal, skipWs, List.dropWhile_cons, isJsonWs]
  | .int n, d, fuel, rest => fun _ hfuel hrest => by
    cases fuel with
    | zero => simp [jsizeV] at hfuel
    | succ g =>
      obtain ⟨c, cs, heq, hc⟩ := intToChars_shape n
      have hf := int_head_facts hc
      rw [show dumpV d (.int n) = intToChars n from by simp [dumpV], heq, List.cons_append]
      simp only [parseVal]
      rw [skipWs_cons_not_ws c _ hf.2.2.2.2.2.2.1]
      have hnum : parseIntTok (c :: (cs ++ rest)) = some (n, rest) := by
        rw [← List.cons_append, ← heq]
        exact parseIntTok_intToChars n rest hrest
      simp [if_neg hf.1, if_neg hf.2.1, if_neg hf.2.2.1, if_neg hf.2.2.2.1,
        if_neg hf.2.2.2.2.1, if_neg hf.2.2.2.2.2.1, hnum,
        show (c = '-' ∨ isDigitCh c = true) from by
          rcases hc with h | h
          · exact Or.inl h
          · exact Or.inr h]
  | .str s, d, fuel, rest => fun _ hfuel _ => by
    cases fuel with
    | zero => simp [jsizeV] at hfuel
    | succ g =>
      rw [show dumpV d (.str s) ++ rest = '"' :: (escStr s ++ '"' :: rest) from by
        simp [dumpV, quoteJ]]
      simp [parseVal, skipWs, List.dropWhile_cons, isJsonWs, parseJString_escStr]
  | .arr [], d, fuel, rest => fun _ hfuel _ => by
    cases fuel with
    | zero => simp [jsizeV] at hfuel
    | succ g =>
      rw [show dumpV d (.arr []) = ['[', ']'] from by simp [dumpV], List.cons_append,
        List.cons_append]
      simp [parseVal, skipWs, List.dropWhile_cons, isJsonWs]
  | .arr (e :: es), d, fuel, rest => fun hwf hfuel hrest => by
    cases fuel with
    | zero =>
      have := jsizeV_pos (.arr (e :: es))
      omega
    | succ g =>
      have hwf2 : wfV e = true ∧ wfL es = true := by
        have : wfV (.arr (e :: es)) = (wfV e && wfL es) := by
          simp [wfV, wfL]
        rw [this, Bool.and_eq_true] at hwf
        exact hwf
      have hfe : jsizeV e ≤ g := by
        have h1 := jsizeL_pos es
        simp only [jsizeV] at hfuel
        omega
      have hfes : jsizeL es ≤ g := by
        have h1 := jsizeV_pos e
        simp only [jsizeV] at hfuel
        omega
      obtain ⟨hd, tl, hshape, hws, hbr⟩ := dumpV_shape (d + 1) e
      have hpv := parseVal_dump e (d + 1) g
        (dumpItems (d + 1) es ++ '\n' :: (padJ d ++ ']' :: rest)) hwf2.1 hfe
        (safeRest_items (d + 1) es (padJ d ++ ']' :: rest))
      have hpi := parseItems_dump es (d + 1) d g rest hwf2.2 hfes hrest
      have harg : dumpV d (.arr (e :: es)) ++ rest =
          '[' :: ('\n' :: (padJ (d + 1) ++ (dumpV (d + 1) e ++
            (dumpItems (d + 1) es ++ '\n' :: (padJ d ++ ']' :: rest))))) := by
        simp [dumpV]
      rw [harg]
      have hsk : skipWs ('\n' :: (padJ (d + 1) ++ (dumpV (d + 1) e ++
          (dumpItems (d + 1) es ++ '\n' :: (padJ d ++ ']' :: rest))))) =
          hd :: (tl ++ (dumpItems (d + 1) es ++ '\n' :: (padJ d ++ ']' :: rest))) := by
        rw [← List.cons_append, skipWs_ws_front _ _ (by
          intro c hc
          rcases hc with _ | ⟨_, hc⟩
          · rfl
          · exact allWs_pad _ c hc), hshape, List.cons_append]
        exact skipWs_cons_not_ws hd _ hws
      rw [hshape, List.cons_append] at hpv
      simp only [parseVal]
      rw [skipWs_cons_not_ws '[' _ (by decide)]
      simp [hsk, hpv, hpi, hbr]
  | .obj [], d, fuel, rest => fun _ hfuel _ => by
    cases fuel with
    | zero => simp [jsizeV] at hfuel
    | succ g =>
      rw [show dumpV d (.obj []) = ['\x7b', '\x7d'] from by simp [dumpV], List.cons_append,
        List.cons_append]
      simp [parseVal, skipWs, List.dropWhile_cons, isJsonWs]
  | .obj ((k, v) :: kvs), d, fuel, rest => fun hwf hfuel hrest => by
    cases fuel with
    | zero =>
      have := jsizeV_pos (.obj ((k, v) :: kvs))
      omega
    | succ g =>
      have hnd : (((k, v) :: kvs).map Prod.fst).Nodup := by
        have : wfV (.obj ((k, v) :: kvs)) =
            (((((k, v) :: kvs).map Prod.fst).Nodup : Bool) && wfF ((k, v) :: kvs)) := by
          simp [wfV]
        rw [this, Bool.and_eq_true] at hwf
        exact of_decide_eq_true hwf.1
      have hwfF : wfV v = true ∧ wfF kvs = true := by
        have h1 : wfV (.obj ((k, v) :: kvs)) =
            (((((k, v) :: kvs).map Prod.fst).Nodup : Bool) && (wfV v && wfF kvs)) := by
          simp [wfV, wfF]
        rw [h1, Bool.and_eq_true, Bool.and_eq_true] at hwf
        exact hwf.2
      have hfv : jsizeV v ≤ g := by
        have h1 := jsizeF_pos kvs
        simp only [jsizeV] at hfuel
        omega
      have hfkvs : jsizeF kvs ≤ g := by
        have h1 := jsizeV_pos v
        simp only [jsizeV] at hfuel
        omega
      have hpv := parseVal_dump v (d + 1) g
        (dumpFields (d + 1) kvs ++ '\n' :: (padJ d ++ '\x7d' :: rest)) hwfF.1 hfv
        (safeRest_fields (d + 1) kvs (padJ d ++ '\x7d' :: rest))
      have hpf := parseFields_dump kvs (d + 1) d g rest hwfF.2 hfkvs hrest
      have harg : dumpV d (.obj ((k, v) :: kvs)) ++ rest =
          '\x7b' :: ('\n' :: (padJ (d + 1) ++ ('"' :: (escStr k ++ '"' :: (':' :: ' ' ::
            (dumpV (d + 1) v ++
              (dumpFields (d + 1) kvs ++ '\n' :: (padJ d ++ '\x7d' :: rest)))))))) := by
        simp [dumpV, quoteJ]
      rw [harg]
      have hsk : skipWs ('\n' :: (padJ (d + 1) ++ ('"' :: (escStr k ++ '"' :: (':' :: ' ' ::
          (dumpV (d + 1) v ++
            (dumpFields (d + 1) kvs ++ '\n' :: (padJ d ++ '\x7d' :: rest)))))))) =
          '"' :: (escStr k ++ '"' :: (':' :: ' ' :: (dumpV (d + 1) v ++
            (dumpFields (d + 1) kvs ++ '\n' :: (padJ d ++ '\x7d' :: rest))))) := by
        rw [← List.cons_append, skipWs_ws_front _ _ (by
          intro c hc
          rcases hc with _ | ⟨_, hc⟩
          · rfl
          · exact allWs_pad _ c hc)]
        exact skipWs_cons_not_ws _ _ (by decide)
      have hpv2 : parseVal g (' ' :: (dumpV (d + 1) v ++
          (dumpFields (d + 1) kvs ++ '\n' :: (padJ d ++ '\x7d' :: rest)))) =
          some (v, dumpFields (d + 1) kvs ++ '\n' :: (padJ d ++ '\x7d' :: rest)) := by
        rw [show (' ' :: (dumpV (d + 1) v ++
            (dumpFields (d + 1) kvs ++ '\n' :: (padJ d ++ '\x7d' :: rest))) : Str) =
          [' '] ++ (dumpV (d + 1) v ++
            (dumpFields (d + 1) kvs ++ '\n' :: (padJ d ++ '\x7d' :: rest))) from rfl,
          parseVal_ws_front g [' '] _ (by decide)]
        exact hpv
      simp only [parseVal]
      rw [skipWs_cons_not_ws '\x7b' _ (by decide)]
      simp [hsk, parseJString_escStr, skipWs_cons_not_ws ':' _ (by decide), hpv2, hpf,
        dedupJ_of_nodup _ hnd]

/-- The item scanner inverts the printed item tail of an array. -/
theorem parseItems_dump : ∀ (es : List JValue) (d1 d2 fuel : Nat) (rest : Str),
    wfL es = true → jsizeL es ≤ fuel → SafeRest rest →
    parseItems fuel (dumpItems d1 es ++ '\n' :: (padJ d2 ++ ']' :: rest)) =
      some (es, rest)
  | [], d1, d2, fuel, rest => fun _ hfuel _ => by
    cases fuel with
    | zero => simp [jsizeL] at hfuel
    | succ g =>
      rw [show dumpItems d1 ([] : List JValue) = [] from by simp [dumpItems],
        List.nil_append]
      have hsk : skipWs ('\n' :: (padJ d2 ++ ']' :: rest)) = ']' :: rest := by
        rw [← List.cons_append, skipWs_ws_front _ _ (by
          intro c hc
          rcases hc with _ | ⟨_, hc⟩
          · rfl
          · exact allWs_pad _ c hc)]
        exact skipWs_cons_not_ws ']' _ (by decide)
      simp only [parseItems]
      simp [hsk]
  | e :: es, d1, d2, fuel, rest => fun hwf hfuel hrest => by
    cases fuel with
    | zero =>
      have := jsizeL_pos (e :: es)
      omega
    | succ g =>
      have hwf2 : wfV e = true ∧ wfL es = true := by
        have : wfL (e :: es) = (wfV e && wfL es) := by simp [wfL]
        rw [this, Bool.and_eq_true] at hwf
        exact hwf
      have hfe : jsizeV e ≤ g := by
        have h1 := jsizeL_pos es
        simp only [jsizeL] at hfuel
        omega
      have hfes : jsizeL es ≤ g := by
        have h1 := jsizeV_pos e
        simp only [jsizeL] at hfuel
        omega
      have hpv := parseVal_dump e d1 g
        (dumpItems d1 es ++ '\n' :: (padJ d2 ++ ']' :: rest)) hwf2.1 hfe
        (safeRest_items d1 es (padJ d2 ++ ']' :: rest))
      have hpi := parseItems_dump es d1 d2 g rest hwf2.2 hfes hrest
      have harg : dumpItems d1 (e :: es) ++ '\n' :: (padJ d2 ++ ']' :: rest) =
          ',' :: ('\n' :: (padJ d1 ++ (dumpV d1 e ++
            (dumpItems d1 es ++ '\n' :: (padJ d2 ++ ']' :: rest))))) := by
        simp [dumpItems]
      rw [harg]
      have hpv2 : parseVal g ('\n' :: (padJ d1 ++ (dumpV d1 e ++
          (dumpItems d1 es ++ '\n' :: (padJ d2 ++ ']' :: rest))))) =
          some (e, dumpItems d1 es ++ '\n' :: (padJ d2 ++ ']' :: rest)) := by
        rw [← List.cons_append, parseVal_ws_front g _ _ (by
          intro c hc
          rcases hc with _ | ⟨_, hc⟩
          · rfl
          · exact allWs_pad _ c hc)]
        exact hpv
      simp only [parseItems]
      rw [skipWs_cons_not_ws ',' _ (by decide)]
      simp [hpv2, hpi]

/-- The entry scanner inverts the printed entry tail of an object. -/
theorem parseFields_dump : ∀ (fs : List (Str × JValue)) (d1 d2 fuel : Nat) (rest : Str),
    wfF fs = true → jsizeF fs ≤ fuel → SafeRest rest →
    parseFields fuel (dumpFields d1 fs ++ '\n' :: (padJ d2 ++ '\x7d' :: rest)) =
      some (fs, rest)
  | [], d1, d2, fuel, rest => fun _ hfuel _ => by
    cases fuel with
    | zero => simp [jsizeF] at hfuel
    | succ g =>
      rw [show dumpFields d1 ([] : List (Str × JValue)) = [] from by simp [dumpFields],
        List.nil_append]
      have hsk : skipWs ('\n' :: (padJ d2 ++ '\x7d' :: rest)) = '\x7d' :: rest := by
        rw [← List.cons_append, skipWs_ws_front _ _ (by
          intro c hc
          rcases hc with _ | ⟨_, hc⟩
          · rfl
          · exact allWs_pad _ c hc)]
        exact skipWs_cons_not_ws '\x7d' _ (by decide)
      simp only [parseFields]
      simp [hsk]
  | (k, v) :: kvs, d1, d2, fuel, rest => fun hwf hfuel hrest => by
    cases fuel with
    | zero =>
      have := jsizeF_pos ((k, v) :: kvs)
      omega
    | succ g =>
      have hwf2 : wfV v = true ∧ wfF kvs = true := by
        have : wfF ((k, v) :: kvs) = (wfV v && wfF kvs) := by simp [wfF]
        rw [this, Bool.and_eq_true] at hwf
        exact hwf
      have hfv : jsizeV v ≤ g := by
        have h1 := jsizeF_pos kvs
        simp only [jsizeF] at hfuel
        omega
      have hfkvs : jsizeF kvs ≤ g := by
        have h1 := jsizeV_pos v
        simp only [jsizeF] at hfuel
        omega
      have hpv := parseVal_dump v d1 g
        (dumpFields d1 kvs ++ '\n' :: (padJ d2 ++ '\x7d' :: rest)) hwf2.1 hfv
        (safeRest_fields d1 kvs (padJ d2 ++ '\x7d' :: rest))
      have hpf := parseFields_dump kvs d1 d2 g rest hwf2.2 hfkvs hrest
      have harg : dumpFields d1 ((k, v) :: kvs) ++ '\n' :: (padJ d2 ++ '\x7d' :: rest) =
          ',' :: ('\n' :: (padJ d1 ++ ('"' :: (escStr k ++ '"' :: (':' :: ' ' ::
            (dumpV d1 v ++
              (dumpFields d1 kvs ++ '\n' :: (padJ d2 ++ '\x7d' :: rest)))))))) := by
        simp [dumpFields, quoteJ]
      rw [harg]
      have hsk : skipWs ('\n' :: (padJ d1 ++ ('"' :: (escStr k ++ '"' :: (':' :: ' ' ::
          (dumpV d1 v ++ (dumpFields d1 kvs ++ '\n' :: (padJ d2 ++ '\x7d' :: rest)))))))) =
          '"' :: (escStr k ++ '"' :: (':' :: ' ' :: (dumpV d1 v ++
            (dumpFields d1 kvs ++ '\n' :: (padJ d2 ++ '\x7d' :: rest))))) := by
        rw [← List.cons_append, skipWs_ws_front _ _ (by
          intro c hc
          rcases hc with _ | ⟨_, hc⟩
          · rfl
          · exact allWs_pad _ c hc)]
        exact skipWs_cons_not_ws _ _ (by decide)
      have hpv2 : parseVal g (' ' :: (dumpV d1 v ++
          (dumpFields d1 kvs ++ '\n' :: (padJ d2 ++ '\x7d' :: rest)))) =
          some (v, dumpFields d1 kvs ++ '\n' :: (padJ d2 ++ '\x7d' :: rest)) := by
        rw [show (' ' :: (dumpV d1 v ++
            (dumpFields d1 kvs ++ '\n' :: (padJ d2 ++ '\x7d' :: rest))) : Str) =
          [' '] ++ (dumpV d1 v ++
            (dumpFields d1 kvs ++ '\n' :: (padJ d2 ++ '\x7d' :: rest))) from rfl,
          parseVal_ws_front g [' '] _ (by decide)]
        exact hpv
      simp only [parseFields]
      rw [skipWs_cons_not_ws ',' _ (by decide)]
      simp [hsk, parseJString_escStr, skipWs_cons_not_ws ':' _ (by decide), hpv2, hpf]

end

/-- Round trip for the structured-record codec: saving a well-formed value
and loading it back yields the value. -/
theorem json_save_load (v : JValue) (hwf : wfV v = true) :
    json_load_data (some (json_save_data v)) = v := by
  unfold json_load_data jsonParse json_save_data
  simp only [univNewlines_eq_self (noCR_dumpV 0 v)]
  have hlen := jsizeV_le 0 v
  have hpv := parseVal_dump v 0 ((dumpV 0 v).length + 1) [] hwf (by omega) (Or.inl rfl)
  rw [List.append_nil] at hpv
  simp [hpv, skipWs]

/-! ### Codec Selector (src/file_handler.py: FileHandlerFactory).

`get_handler` maps the path's lowercased suffix to a handler class through the
static `_handlers` table, and raises `ValueError` for unknown suffixes.  It
receives only the path and never looks at file contents. -/

inductive HandlerType where
  | html
  | json
  | csv
  | txt
  | binary
deriving DecidableEq, Repr

instance : Inhabited HandlerType := ⟨HandlerType.binary⟩

/-- The static `_handlers` table, in source order. -/
def handlers_table : List (Str × HandlerType) :=
  [(".html".toList, .html), (".htm".toList, .html), (".json".toList, .json),
   (".csv".toList, .csv), (".txt".toList, .txt), (".bin".toList, .binary),
   (".dat".toList, .binary), (".png".toList, .binary), (".jpg".toList, .binary),
   (".mp3".toList, .binary), (".wav".toList, .binary), (".pdf".toList, .binary)]

def lookupHandler : List (Str × HandlerType) → Str → Option HandlerType
  | [], _ => none
  | (k, v) :: rest, key => if k = key then some v else lookupHandler rest key

/-- Index of the last occurrence of a character (Python `str.rfind`). -/
def rfindIdx : Str → Char → Option Nat
  | [], _ => none
  | x :: r, c =>
    match rfindIdx r c with
    | some i => some (i + 1)
    | none => if x = c then some 0 else none

/-- `os.path.splitext(p)[1]` (POSIX): the suffix from the last dot, provided
the dot comes after the last separator and the base name does not consist
solely of leading dots. -/
def splitext_ext (p : Str) : Str :=
  match rfindIdx p '.' with
  | none => []
  | some dotIndex =>
    let filenameIndex :=
      match rfindIdx p '/' with
      | some m => m + 1
      | none => 0
    if filenameIndex ≤ dotIndex then
      if ((p.drop filenameIndex).take (dotIndex - filenameIndex)).any (· ≠ '.') then
        p.drop dotIndex
      else []
    else []

def joinStr (sep : Str) : List Str → Str
  | [] => []
  | x :: xs => x ++ (if xs.isEmpty then [] else sep ++ joinStr sep xs)

/-- The `ValueError` message raised for an unsupported suffix. -/
def unsupported_message (ext : Str) : Str :=
  "Unsupported file type: ".toList ++ ext ++ ". Supported types: ".toList ++
    joinStr ", ".toList (handlers_table.map Prod.fst)

/-- `FileHandlerFactory.get_handler`: selects the handler class from the
lowercased suffix alone (the returned handler also carries the path it was
constructed with); unknown suffixes raise. -/
def get_handler (file_path : Str) : Except Str (HandlerType × Str) :=
  let ext := lowerPy (splitext_ext file_path)
  match lookupHandler handlers_table ext with
  | some h => .ok (h, file_path)
  | none => .error (unsupported_message ext)

/-- Python's `needle in haystack` substring test. -/
def isSub : Str → Str → Bool
  | n, h =>
    if n.isPrefixOf h then true
    else
      match h with
      | [] => false
      | _ :: t => isSub n t

theorem isSub_self_append (n b : Str) : isSub n (n ++ b) = true := by
  unfold isSub
  rw [if_pos]
  exact List.isPrefixOf_iff_prefix.2 ⟨b, rfl⟩

theorem isSub_cons (n : Str) (c : Char) (h : Str) (hs : isSub n h = true) :
    isSub n (c :: h) = true := by
  unfold isSub
  split
  · rfl
  · exact hs

theorem isSub_append_right (n a h : Str) (hs : isSub n h = true) :
    isSub n (a ++ h) = true := by
  induction a with
  | nil => exact hs
  | cons c r ih => exact isSub_cons n c (r ++ h) ih

theorem isSub_joinStr (sep : Str) (parts : List Str) (s : Str) (h : s ∈ parts) :
    isSub s (joinStr sep parts) = true := by
  induction parts with
  | nil => simp at h
  | cons x xs ih =>
    rcases h with _ | ⟨_, h⟩
    · rw [show joinStr sep (s :: xs) =
          s ++ (if xs.isEmpty then [] else sep ++ joinStr sep xs) from rfl]
      exact isSub_self_append s _
    · have hxe : xs.isEmpty = false := by
        cases xs with
        | nil => cases h
        | cons y ys => rfl
      rw [show joinStr sep (x :: xs) = x ++ (sep ++ joinStr sep xs) from by
        rw [show joinStr sep (x :: xs) =
            x ++ (if xs.isEmpty then [] else sep ++ joinStr sep xs) from rfl, hxe]
        simp]
      exact isSub_append_right s x _ (isSub_append_right s sep _ (ih h))

theorem lookupHandler_eq_none (table : List (Str × HandlerType)) (key : Str)
    (h : key ∉ table.map Prod.fst) : lookupHandler table key = none := by
  induction table with
  | nil => rfl
  | cons kv rest ih =>
    obtain ⟨k, v⟩ := kv
    have hk : k ≠ key := by
      intro he
      exact h (by simp [he])
    rw [show lookupHandler ((k, v) :: rest) key = lookupHandler rest key from by
      simp [lookupHandler, hk]]
    exact ih (fun hc => h (List.mem_cons_of_mem _ hc))

theorem lookupHandler_of_mem (table : List (Str × HandlerType)) (key : Str)
    (h : HandlerType) (hnd : (table.map Prod.fst).Nodup) (hmem : (key, h) ∈ table) :
    lookupHandler table key = some h := by
  induction table with
  | nil => simp at hmem
  | cons kv rest ih =>
    obtain ⟨k, v⟩ := kv
    rcases hmem with _ | ⟨_, hmem⟩
    · simp [lookupHandler]
    · have hk : k ≠ key := by
        intro he
        subst he
        simp only [List.map_cons, List.nodup_cons] at hnd
        exact hnd.1 (List.mem_map.2 ⟨(k, h), hmem, rfl⟩)
      rw [show lookupHandler ((k, v) :: rest) key = lookupHandler rest key from by
        simp [lookupHandler, hk]]
      exact ih (by
        simp only [List.map_cons, List.nodup_cons] at hnd
        exact hnd.2) hmem

/-! ### Catalog Store (src/storage/storage_json.py, src/storage/storage_csv.py).

Entries are modelled as records; the `rating` float is carried as a `Rat`
(never inspected by these operations).  `none` models Python `None` / JSON
null.  The results record what is saved and what is printed. -/

structure Movie where
  title : Str
  year : Int
  rating : Rat
  poster : Option Str
  media_type : Str
  country : Option Str
  note : Option Str
deriving DecidableEq, Repr

/-- `StorageJson.add_movie`: normalizes the poster (`poster.strip() if poster
else None`), then appends the entry dict — whose `poster` field is
`poster or ""`, a string, never null — and saves. -/
def StorageJson_add_movie (movies : List Movie) (title : Str) (year : Int)
    (rating : Rat) (poster : Option Str) (media_type : Str)
    (country : Option Str) (note : Str) : List Movie :=
  let poster1 : Option Str :=
    match poster with
    | some p => if p ≠ [] then some (stripPy p) else none
    | none => none
  movies ++ [{
    title := title, year := year, rating := rating,
    poster := some (match poster1 with
      | some p => if p ≠ [] then p else []
      | none => []),
    media_type := media_type,
    country := match country with
      | some c => if c ≠ [] then some c else none
      | none => none,
    note := if note ≠ [] then some note else none }]

/-- `StorageCsv.add_movie`: appends the row dict with `poster or ""` (no
stripping) and no `country` column, and saves. -/
def StorageCsv_add_movie (movies : List Movie) (title : Str) (year : Int)
    (rating : Rat) (poster : Option Str) (media_type : Str) (note : Str) :
    List Movie :=
  movies ++ [{
    title := title, year := year, rating := rating,
    poster := some (match poster with
      | some p => if p ≠ [] then p else []
      | none => []),
    media_type := media_type,
    country := none,
    note := if note ≠ [] then some note else none }]

structure DeleteResult where
  movies : List Movie
  printed_not_found : Bool
deriving DecidableEq, Repr

/-- `StorageJson.delete_movie`: keep the entries whose lowercased title
differs, report when nothing matched, save the filtered list either way. -/
def StorageJson_delete_movie (movies : List Movie) (title : Str) : DeleteResult :=
  let updated_movies := movies.filter (fun movie => lowerPy movie.title ≠ lowerPy title)
  { movies := updated_movies,
    printed_not_found := updated_movies.length = movies.length }

/-- `StorageCsv.delete_movie`: identical filtering and reporting; the save
goes through the CSV handler (whose empty-guard makes an empty save a no-op). -/
def StorageCsv_delete_movie (movies : List Movie) (title : Str) : DeleteResult :=
  let updated_movies := movies.filter (fun movie => lowerPy movie.title ≠ lowerPy title)
  { movies := updated_movies,
    printed_not_found := updated_movies.length = movies.length }

structure UpdateResult where
  movies : List Movie
  saved : Bool
  printed_not_found : Bool
deriving DecidableEq, Repr

/-- The shared `update_movie` loop: walk the list, rewrite the first entry
with a case-insensitive title match (`movie["note"] = note`, then
`movie["note"] = note if note else None` when a note was provided), save and
return.  The boolean reports whether a match was found (loop exited early). -/
def update_movie_loop (movies : List Movie) (title : Str) (note : Option Str) :
    List Movie × Bool :=
  match movies with
  | [] => ([], false)
  | movie :: rest =>
    if lowerPy movie.title = lowerPy title then
      let n1 := note
      let n2 := match note with
        | some s => if s ≠ [] then some s else none
        | none => n1
      ({ movie with note := n2 } :: rest, true)
    else
      let p := update_movie_loop rest title note
      (movie :: p.1, p.2)

/-- `StorageJson.update_movie`: saves only when a match was found; silently
returns (no message) when no entry matched. -/
def StorageJson_update_movie (movies : List Movie) (title : Str)
    (note : Option Str) : UpdateResult :=
  let p := update_movie_loop movies title note
  { movies := p.1, saved := p.2, printed_not_found := false }

/-- `StorageCsv.update_movie`: same loop, but prints the not-found message
after an unsuccessful scan. -/
def StorageCsv_update_movie (movies : List Movie) (title : Str)
    (note : Option Str) : UpdateResult :=
  let p := update_movie_loop movies title note
  { movies := p.1, saved := p.2, printed_not_found := !p.2 }

theorem update_movie_loop_spec (pre : List Movie) (m : Movie) (post : List Movie)
    (title : Str) (note : Option Str)
    (hpre : ∀ p ∈ pre, lowerPy p.title ≠ lowerPy title)
    (hm : lowerPy m.title = lowerPy title) :
    update_movie_loop (pre ++ m :: post) title note =
      (pre ++ { m with note := match note with
        | some s => if s ≠ [] then some s else none
        | none => none } :: post, true) := by
  induction pre with
  | nil =>
    simp only [List.nil_append, update_movie_loop, if_pos hm]
    cases note <;> simp
  | cons p pre' ih =>
    have hp : ¬ lowerPy p.title = lowerPy title := hpre p (by simp)
    simp only [List.cons_append, update_movie_loop, if_neg hp, List.append_eq]
    rw [ih (fun q hq => hpre q (List.mem_cons_of_mem p hq))]

theorem update_movie_loop_not_found (movies : List Movie) (title : Str)
    (note : Option Str) (h : ∀ m ∈ movies, lowerPy m.title ≠ lowerPy title) :
    update_movie_loop movies title note = (movies, false) := by
  induction movies with
  | nil => rfl
  | cons m rest ih =>
    simp only [update_movie_loop, if_neg (h m (by simp))]
    rw [ih (fun q hq => h q (List.mem_cons_of_mem m hq))]

/-! ### Resolver (src/user_input_handler.py `get_best_match`), with a model
of `difflib.get_close_matches` / `SequenceMatcher.ratio` (isjunk=None,
autojunk=True).  Float ratios are carried exactly as `Rat`. -/

/-- `b2j.get(c, [])` after `__chain_b`: the ascending indices of `c` in `b`,
except that with `autojunk` and `len(b) >= 200` a character occurring in
more than one percent of `b` is dropped as popular. -/
def b2jGet (b : Str) (c : Char) : List Nat :=
  let idxs := (List.range b.length).filter (fun j => b.getD j ' ' = c)
  if 200 ≤ b.length ∧ b.length / 100 + 1 < idxs.length then [] else idxs

/-- The dynamic program of `find_longest_match`: for each `i` in
`range(alo, ahi)` rebuild `j2len` from the previous row and track the best
`(besti, bestj, bestsize)`.  The `j < blo continue` / `j >= bhi break`
guards are a filter, since the index lists are ascending. -/
def flmDP (a b : Str) (alo ahi blo bhi : Nat) : Nat × Nat × Nat :=
  ((List.range' alo (ahi - alo)).foldl
    (fun (acc : (Nat → Nat) × (Nat × Nat × Nat)) i =>
      ((b2jGet b (a.getD i ' ')).filter
          (fun j => decide (blo ≤ j) && decide (j < bhi))).foldl
        (fun (acc2 : (Nat → Nat) × (Nat × Nat × Nat)) j =>
          let k := (if j = 0 then 0 else acc.1 (j - 1)) + 1
          ((fun x => if x = j then k else acc2.1 x),
           if acc2.2.2.2 < k then (i + 1 - k, j + 1 - k, k) else acc2.2))
        ((fun _ => 0), acc.2))
    ((fun _ => 0), (alo, blo, 0))).2

/-- The first widening loop of `find_longest_match`: extend the block
backwards while the preceding characters match.  Structural on `besti`.
(The junk variants of the widening loops never run: with `isjunk=None` the
junk set `bjunk` is empty.) -/
def extendBack (a b : Str) (alo blo : Nat) : Nat → Nat → Nat → Nat × Nat × Nat
  | 0, bestj, bestsize => (0, bestj, bestsize)
  | bi + 1, bestj, bestsize =>
    if alo < bi + 1 ∧ blo < bestj ∧ a.getD bi ' ' = b.getD (bestj - 1) ' ' then
      extendBack a b alo blo bi (bestj - 1) (bestsize + 1)
    else (bi + 1, bestj, bestsize)

/-- The second widening loop: extend forwards while the following characters
match.  The loop runs fewer than `ahi` times (callers pass `ahi` as fuel). -/
def extendFwd (a b : Str) (ahi bhi besti bestj : Nat) : Nat → Nat → Nat
  | 0, bestsize => bestsize
  | fuel + 1, bestsize =>
    if besti + bestsize < ahi ∧ bestj + bestsize < bhi ∧
        a.getD (besti + bestsize) ' ' = b.getD (bestj + bestsize) ' ' then
      extendFwd a b ahi bhi besti bestj fuel (bestsize + 1)
    else bestsize

def find_longest_match (a b : Str) (alo ahi blo bhi : Nat) : Nat × Nat × Nat :=
  let p := flmDP a b alo ahi blo bhi
  let q := extendBack a b alo blo p.1 p.2.1 p.2.2
  (q.1, q.2.1, extendFwd a b ahi bhi q.1 q.2.1 ahi q.2.2)

/-- Total size of the matching blocks (`get_matching_blocks`), computed as
the recursion it performs: longest match, then the regions to its left and
right.  (The queue guards `alo < i and blo < j` etc. only skip sub-regions
whose own longest match is empty, so they do not change the sum.)  Each
recursive call strictly shrinks `ahi - alo`, so fuel `a.length + 1`
suffices. -/
def msumF (a b : Str) : Nat → Nat → Nat → Nat → Nat → Nat
  | 0, _, _, _, _ => 0
  | fuel + 1, alo, ahi, blo, bhi =>
    let t := find_longest_match a b alo ahi blo bhi
    if t.2.2 = 0 then 0
    else msumF a b fuel alo t.1 blo t.2.1 + t.2.2 +
         msumF a b fuel (t.1 + t.2.2) ahi (t.2.1 + t.2.2) bhi

def matchesSum (a b : Str) : Nat := msumF a b (a.length + 1) 0 a.length 0 b.length

/-- `SequenceMatcher.ratio`: `2.0 * M / T` (carried as the exact rational
`mkRat (2 * M) T`), and 1 when both sequences are empty. -/
def ratioPy (a b : Str) : Rat :=
  if a.length + b.length = 0 then 1
  else mkRat (2 * matchesSum a b) (a.length + b.length)

/-- Python string comparison `<` (lexicographic on code points). -/
def strLtPy : Str → Str → Bool
  | [], [] => false
  | [], _ :: _ => true
  | _ :: _, [] => false
  | c :: cs, d :: ds =>
    if c.toNat < d.toNat then true
    else if d.toNat < c.toNat then false
    else strLtPy cs ds

/-- Descending order on scored candidates: Python tuple comparison on
`(score, string)`, largest first. -/
def scoredGe (x y : Rat × Str) : Bool :=
  if y.1 < x.1 then true
  else if x.1 = y.1 then !strLtPy x.2 y.2
  else false

def insertDesc (x : Rat × Str) : List (Rat × Str) → List (Rat × Str)
  | [] => [x]
  | y :: ys => if scoredGe x y then x :: y :: ys else y :: insertDesc x ys

/-- `heapq.nlargest` on `(score, string)` pairs is `sorted(result,
reverse=True)[:n]`; with pairwise-distinct pairs any sort by the total
descending order agrees with it, so an insertion sort serves as the model. -/
def sortDesc : List (Rat × Str) → List (Rat × Str)
  | [] => []
  | x :: xs => insertDesc x (sortDesc xs)

/-- `difflib.get_close_matches`: keep the possibilities whose ratio against
`word` reaches `cutoff` (the two quick ratios are upper bounds of `ratio`,
so the three-way guard is equivalent to `ratio() >= cutoff`), order the
survivors by descending `(score, string)` and return the first `n`. -/
def get_close_matches (word : Str) (possibilities : List Str) (n : Nat)
    (cutoff : Rat) : List Str :=
  let result := (possibilities.filter (fun x => cutoff ≤ ratioPy x word)).map
    (fun x => (ratioPy x word, x))
  ((sortDesc result).take n).map Prod.snd

/-- Python dict assignment `d[k] = v`: overwrite in place, else append. -/
def dictInsertStr (d : List (Str × Str)) (k v : Str) : List (Str × Str) :=
  if (d.map Prod.fst).contains k then
    d.map (fun kv => if kv.1 = k then (k, v) else kv)
  else d ++ [(k, v)]

/-- The comprehension building the case-folding dict of `get_best_match`:
lowercased title to original title, later duplicates overwriting. -/
def buildLowerOptions (options : List Str) : List (Str × Str) :=
  options.foldl (fun d o => dictInsertStr d (lowerPy o) o) []

/-- Outcome of `get_best_match`: an immediate exact match; a numbered
prompt over substring matches or over close matches (carrying the user's
eventual pick, `none` on cancel); or the no-match message. -/
inductive MatchOutcome where
  | found (title : Str)
  | promptSubstring (candidates : List Str) (result : Option Str)
  | promptClose (candidates : List Str) (result : Option Str)
  | noMatch
deriving DecidableEq, Repr

/-- `matches[selected_index - 1]` when the prompt returns an index,
`None` on cancel; `get_valid_numeric_input` only returns indices in
`[1, len(matches)]`. -/
def selectFromList (cands : List Str) (sel : Option Nat) : Option Str :=
  match sel with
  | none => none
  | some i => cands.get? (i - 1)

/-- `UserInputHandler.get_best_match(user_input, options)`.  The validated
numeric reply the user would give at a prompt is passed in as `sel`. -/
def get_best_match (user_input : Str) (options : List Str) (sel : Option Nat) :
    MatchOutcome :=
  let lower_options := buildLowerOptions options
  let user_input_lower := lowerPy user_input
  match assocLookup lower_options user_input_lower with
  | some t => .found t
  | none =>
    let matchesL := options.filter (fun t => isSub user_input_lower (lowerPy t))
    if matchesL.isEmpty = false then
      .promptSubstring matchesL (selectFromList matchesL sel)
    else
      let close_matches :=
        get_close_matches user_input_lower (lower_options.map Prod.fst) 5 (mkRat 2 5)
      if close_matches.isEmpty = false then
        .promptClose close_matches
          ((selectFromList close_matches sel).bind
            (fun m => assocLookup lower_options m))
      else .noMatch

theorem strLtPy_asymm : ∀ s t : Str, strLtPy s t = true → strLtPy t s = false
  | [], [] => by simp [strLtPy]
  | [], _ :: _ => fun _ => rfl
  | _ :: _, [] => by simp [strLtPy]
  | c :: cs, d :: ds => by
    simp only [strLtPy]
    intro h
    by_cases h1 : c.toNat < d.toNat
    · have h2 : ¬ d.toNat < c.toNat := by omega
      simp [h1, h2]
    · by_cases h2 : d.toNat < c.toNat
      · simp [h1, h2] at h
      · simp only [h1, h2, if_false, if_neg] at h ⊢
        simp [h1, h2, strLtPy_asymm cs ds h]

theorem scoredGe_total (x y : Rat × Str) (h : scoredGe x y = false) :
    scoredGe y x = true := by
  unfold scoredGe at h ⊢
  by_cases h1 : y.1 < x.1
  · simp [h1] at h
  · by_cases h2 : x.1 = y.1
    · rw [if_neg h1, if_pos h2, Bool.not_eq_false'] at h
      have h3 := strLtPy_asymm x.2 y.2 h
      have h4 : ¬ x.1 < y.1 := by rw [h2]; exact lt_irrefl _
      rw [if_neg h4, if_pos h2.symm, h3]
      rfl
    · have h3 : x.1 < y.1 := lt_of_le_of_ne (not_lt.mp h1) h2
      simp [h3]

theorem mem_insertDesc (x a : Rat × Str) : ∀ l : List (Rat × Str),
    a ∈ insertDesc x l → a = x ∨ a ∈ l
  | [], h => by simpa [insertDesc] using h
  | y :: ys, h => by
    simp only [insertDesc] at h
    by_cases hxy : scoredGe x y = true
    · rw [if_pos hxy] at h
      exact List.mem_cons.mp h
    · rw [if_neg hxy] at h
      rcases List.mem_cons.mp h with h | h
      · exact Or.inr (by simp [h])
      · rcases mem_insertDesc x a ys h with h | h
        · exact Or.inl h
        · exact Or.inr (List.mem_cons_of_mem y h)

theorem mem_sortDesc (a : Rat × Str) : ∀ l : List (Rat × Str),
    a ∈ sortDesc l → a ∈ l
  | [], h => by simp [sortDesc] at h
  | x :: xs, h => by
    simp only [sortDesc] at h
    rcases mem_insertDesc x a (sortDesc xs) h with h | h
    · simp [h]
    · exact List.mem_cons_of_mem x (mem_sortDesc a xs h)

theorem chain'_insertDesc (x : Rat × Str) : ∀ l : List (Rat × Str),
    l.Chain' (fun u v => scoredGe u v = true) →
    (insertDesc x l).Chain' (fun u v => scoredGe u v = true)
  | [], _ => by simp [insertDesc]
  | y :: ys, h => by
    simp only [insertDesc]
    by_cases hxy : scoredGe x y = true
    · rw [if_pos hxy, List.chain'_cons]
      exact ⟨hxy, h⟩
    · rw [if_neg hxy]
      have hyx := scoredGe_total x y (Bool.eq_false_iff.mpr hxy)
      cases ys with
      | nil =>
        simp only [insertDesc, List.chain'_cons]
        exact ⟨hyx, by simp⟩
      | cons z zs =>
        rw [List.chain'_cons] at h
        have ih := chain'_insertDesc x (z :: zs) h.2
        simp only [insertDesc] at ih ⊢
        by_cases hxz : scoredGe x z = true
        · rw [if_pos hxz] at ih ⊢
          rw [List.chain'_cons]
          exact ⟨hyx, ih⟩
        · rw [if_neg hxz] at ih ⊢
          rw [List.chain'_cons]
          exact ⟨h.1, ih⟩

theorem chain'_sortDesc : ∀ l : List (Rat × Str),
    (sortDesc l).Chain' (fun u v => scoredGe u v = true)
  | [] => by simp [sortDesc]
  | x :: xs => by
    simp only [sortDesc]
    exact chain'_insertDesc x (sortDesc xs) (chain'_sortDesc xs)

theorem chain'_imp_mem {α : Type} {R S : α → α → Prop} :
    ∀ l : List α, (∀ a ∈ l, ∀ b ∈ l, R a b → S a b) → l.Chain' R → l.Chain' S
  | [], _, _ => List.chain'_nil
  | [_], _, _ => by simp
  | a :: b :: l, hmem, h => by
    rw [List.chain'_cons] at h ⊢
    refine ⟨hmem a (by simp) b (by simp) h.1, ?_⟩
    exact chain'_imp_mem (b :: l) (fun u hu v hv => hmem u (by simp [hu]) v (by simp [hv])) h.2

theorem scoredGe_fst (u v : Rat × Str) (h : scoredGe u v = true) : v.1 ≤ u.1 := by
  unfold scoredGe at h
  by_cases h1 : v.1 < u.1
  · exact le_of_lt h1
  · by_cases h2 : u.1 = v.1
    · exact le_of_eq h2.symm
    · simp [h1, h2] at h

theorem get_close_matches_spec (word : Str) (poss : List Str) (n : Nat)
    (cutoff : Rat) :
    (get_close_matches word poss n cutoff).length ≤ n
    ∧ (∀ x ∈ get_close_matches word poss n cutoff,
        x ∈ poss ∧ cutoff ≤ ratioPy x word)
    ∧ (get_close_matches word poss n cutoff).Pairwise
        (fun x y => ratioPy y word ≤ ratioPy x word) := by
  have hmem : ∀ p ∈ (List.take n (sortDesc ((poss.filter
      (fun x => decide (cutoff ≤ ratioPy x word))).map
      (fun x => (ratioPy x word, x))))),
      p.2 ∈ poss ∧ cutoff ≤ ratioPy p.2 word ∧ p.1 = ratioPy p.2 word := by
    intro p hp
    have hp2 := mem_sortDesc p _ (List.take_subset _ _ hp)
    rcases List.mem_map.mp hp2 with ⟨z, hz, hzp⟩
    rcases List.mem_filter.mp hz with ⟨hz1, hz2⟩
    subst hzp
    exact ⟨hz1, of_decide_eq_true hz2, rfl⟩
  refine ⟨?_, ?_, ?_⟩
  · simp only [get_close_matches, List.length_map]
    exact List.length_take_le n _
  · intro x hx
    rcases List.mem_map.mp hx with ⟨p, hp, hpx⟩
    rcases hmem p hp with ⟨h1, h2, _⟩
    rw [← hpx]
    exact ⟨h1, h2⟩
  · have hch : (List.take n (sortDesc ((poss.filter
        (fun x => decide (cutoff ≤ ratioPy x word))).map
        (fun x => (ratioPy x word, x))))).Chain'
        (fun u v => ratioPy v.2 word ≤ ratioPy u.2 word) := by
      refine chain'_imp_mem _ ?_ ((chain'_sortDesc _).take n)
      intro u hu v hv hr
      have hu3 := (hmem u hu).2.2
      have hv3 := (hmem v hv).2.2
      rw [← hu3, ← hv3]
      exact scoredGe_fst u v hr
    have hch2 : (get_close_matches word poss n cutoff).Chain'
        (fun x y => ratioPy y word ≤ ratioPy x word) := by
      simp only [get_close_matches]
      exact List.chain'_map_of_chain' Prod.snd (fun a b h => h) hch
    haveI : IsTrans Str (fun x y => ratioPy y word ≤ ratioPy x word) :=
      ⟨fun a b c hab hbc => le_trans hbc hab⟩
    exact List.chain'_iff_pairwise.mp hch2

/-! ### The claims. -/

/-- Claim C1 counterexample: the raw-string (HTML) codec's Value shape is an
arbitrary string, yet saving the one-character string CR and loading it back
yields LF, not the input — text-mode reading applies universal-newline
translation.  So the round-trip law does not hold for every value of every
codec's Value shape. -/
theorem C1_counterexample :
    html_load_data (html_save_data ['\r']) ≠ ['\r'] := by decide

/-- Claim C1 (amended): save followed by load returns the input for every
codec once values are free of raw carriage returns — binary byte strings
unconditionally; CR-free raw strings; lists of non-blank trimmed lines;
well-formed structured (JSON) values; non-empty well-formed delimited-table
record sequences — and saving the empty record sequence is the documented
no-op that leaves the file untouched. -/
theorem C1_codec_round_trip :
    (∀ b : List Nat, binary_load_data (binary_save_data b) = b)
    ∧ (∀ s : Str, noCR s → html_load_data (html_save_data s) = s)
    ∧ (∀ lines : List Str, (∀ l ∈ lines, isLine l) →
        txt_load_data (txt_save_data lines) = lines)
    ∧ (∀ v : JValue, wfV v = true →
        json_load_data (some (json_save_data v)) = v)
    ∧ (∀ (data : List CsvRec) (file : Option Str), data ≠ [] → CsvWf data →
        csv_load_data (csv_save_data data file) =
          data.map (fun rec => (rec.map (fun kv => (kv.1, some kv.2)), none)))
    ∧ (∀ file : Option Str, csv_save_data [] file = file) :=
  ⟨binary_save_load, html_save_load, txt_save_load, json_save_load,
   fun data file hne hwf => csv_save_load data file hne hwf,
   fun file => by simp [csv_save_data]⟩

theorem C1_codec_round_trip_witness :
    binary_load_data (binary_save_data [0, 255]) = [0, 255]
    ∧ html_load_data (html_save_data ['a', '\n', 'b']) = ['a', '\n', 'b']
    ∧ txt_load_data (txt_save_data [['h', 'i'], ['y', 'o']]) = [['h', 'i'], ['y', 'o']]
    ∧ json_load_data (some (json_save_data (JValue.obj [(['m'], JValue.int 3)])))
        = JValue.obj [(['m'], JValue.int 3)]
    ∧ csv_load_data (csv_save_data [[(['t'], ['x'])]] none)
        = [([(['t'], some ['x'])], none)]
    ∧ csv_save_data [] (some ['z']) = some ['z'] :=
  ⟨C1_codec_round_trip.1 [0, 255],
   C1_codec_round_trip.2.1 ['a', '\n', 'b'] (by decide),
   C1_codec_round_trip.2.2.1 [['h', 'i'], ['y', 'o']] (by decide),
   C1_codec_round_trip.2.2.2.1 (JValue.obj [(['m'], JValue.int 3)]) (by decide),
   C1_codec_round_trip.2.2.2.2.1 [[(['t'], ['x'])]] none (by decide) (by decide),
   C1_codec_round_trip.2.2.2.2.2 (some ['z'])⟩

/-- Claim C2 counterexample: with known titles "The Matrix" and "Dune" and
user input "mat" there is no exact case-insensitive match and exactly one
substring hit, yet the resolver does not return it immediately: it presents
the one-element numbered candidate list and asks for an index (returning
nothing when the user cancels). -/
theorem C2_counterexample :
    (["The Matrix".toList, "Dune".toList].filter
        (fun s => isSub (lowerPy "mat".toList) (lowerPy s))).length = 1
    ∧ get_best_match "mat".toList ["The Matrix".toList, "Dune".toList] none =
        MatchOutcome.promptSubstring ["The Matrix".toList] none
    ∧ ∀ r, get_best_match "mat".toList ["The Matrix".toList, "Dune".toList] none ≠
        MatchOutcome.found r := by
  refine ⟨by decide, by decide, ?_⟩
  intro r hr
  have h2 : MatchOutcome.promptSubstring ["The Matrix".toList] none =
      MatchOutcome.found r :=
    (show get_best_match "mat".toList ["The Matrix".toList, "Dune".toList] none =
        MatchOutcome.promptSubstring ["The Matrix".toList] none by decide).symm.trans hr
  exact MatchOutcome.noConfusion h2

/-- Claim C2 (amended): when there is no exact case-insensitive match and the
substring-containment set is non-empty — even when it has exactly one
element — the resolver does not return the hit immediately: it presents the
numbered candidate list and returns the title the user selects by index, or
no result when the user cancels. -/
theorem C2_substring_prompt (user_input : Str) (options : List Str)
    (sel : Option Nat) (t : Str)
    (hexact : assocLookup (buildLowerOptions options) (lowerPy user_input) = none)
    (hsub : options.filter (fun s => isSub (lowerPy user_input) (lowerPy s)) = [t]) :
    get_best_match user_input options sel =
        MatchOutcome.promptSubstring [t] (selectFromList [t] sel)
    ∧ selectFromList [t] (some 1) = some t
    ∧ selectFromList [t] none = none := by
  refine ⟨?_, rfl, rfl⟩
  simp only [get_best_match]
  rw [hexact, hsub]
  simp

theorem C2_substring_prompt_witness :
    get_best_match "mat".toList ["The Matrix".toList, "Dune".toList] (some 1) =
        MatchOutcome.promptSubstring ["The Matrix".toList] (some "The Matrix".toList)
    ∧ selectFromList ["The Matrix".toList] (some 1) = some "The Matrix".toList :=
  ⟨(C2_substring_prompt "mat".toList ["The Matrix".toList, "Dune".toList]
      (some 1) "The Matrix".toList (by decide) (by decide)).1,
   (C2_substring_prompt "mat".toList ["The Matrix".toList, "Dune".toList]
      (some 1) "The Matrix".toList (by decide) (by decide)).2.1⟩

/-- Claim C3 (code bug): an empty-string or whitespace-only poster is NOT
stored as absent.  Both backends evaluate `poster or ""` when building the
entry, so the stored poster field is the empty string — for the JSON backend
even after its `poster.strip() if poster else None` normalization step, whose
comment says it "prevents empty string posters".  The appended entries below
carry `some []` (the empty string), never `none`. -/
theorem C3_empty_poster_stored_as_empty_string :
    StorageJson_add_movie [] "T".toList 1999 9 (some []) "movie".toList none []
      = [⟨"T".toList, 1999, 9, some [], "movie".toList, none, none⟩]
    ∧ StorageJson_add_movie [] "T".toList 1999 9 (some [' ', ' ']) "movie".toList none []
      = [⟨"T".toList, 1999, 9, some [], "movie".toList, none, none⟩]
    ∧ StorageCsv_add_movie [] "T".toList 1999 9 (some []) "movie".toList []
      = [⟨"T".toList, 1999, 9, some [], "movie".toList, none, none⟩]
    ∧ some ([] : Str) ≠ (none : Option Str) := by
  refine ⟨by decide, by decide, by decide, by simp⟩

/-- Claim C4: saving an empty sequence through the delimited-table codec
performs no write at all — the backing file's prior content is returned
byte-for-byte untouched — and saving any non-empty sequence writes the
header row taken from the first record's keys followed by one row per
record. -/
theorem C4_csv_save_empty_guard (data : List CsvRec) (file : Option Str)
    (hne : data ≠ []) :
    (∀ f : Option Str, csv_save_data [] f = f)
    ∧ csv_save_data data file =
        some (writeRow (keysOf (data.headD [])) ++
          concatL (data.map (fun rec =>
            writeRow (dict_to_list (keysOf (data.headD [])) rec)))) := by
  constructor
  · intro f
    simp [csv_save_data]
  · simp [csv_save_data, hne, csv_render]

theorem C4_csv_save_empty_guard_witness :
    csv_save_data [] (some ['z']) = some ['z']
    ∧ csv_save_data [[(['a'], ['1'])]] (some ['z']) =
        some (writeRow [['a']] ++ concatL [writeRow [['1']]]) :=
  ⟨(C4_csv_save_empty_guard [[(['a'], ['1'])]] (some ['z']) (by decide)).1 (some ['z']),
   (C4_csv_save_empty_guard [[(['a'], ['1'])]] (some ['z']) (by decide)).2⟩

theorem filter_length_lt_of_mem_not {α : Type} (l : List α) (p : α → Bool)
    (a : α) (ha : a ∈ l) (hpa : p a = false) :
    (l.filter p).length < l.length := by
  induction l with
  | nil => cases ha
  | cons x xs ih =>
    rcases List.mem_cons.mp ha with rfl | ha'
    · rw [List.filter_cons, hpa]
      simp only [List.length_cons]
      exact Nat.lt_succ_of_le (List.length_filter_le p xs)
    · cases hpx : p x
      · rw [List.filter_cons, hpx]
        simp only [List.length_cons]
        exact Nat.lt_succ_of_le (List.length_filter_le p xs)
      · rw [List.filter_cons, hpx]
        simp only [List.length_cons, if_true]
        exact Nat.succ_lt_succ (ih ha')

/-- Claim C5 counterexample: deleting title "up" from a catalog holding the
two entries "Up" and "UP" removes both of them — two entries gone, not
exactly one — because the delete filters out every case-insensitive match. -/
theorem C5_counterexample :
    (StorageJson_delete_movie
        [⟨"Up".toList, 2009, 8, none, "movie".toList, none, none⟩,
         ⟨"UP".toList, 2010, 7, none, "movie".toList, none, none⟩]
        "up".toList).movies = []
    ∧ (2 - (StorageJson_delete_movie
        [⟨"Up".toList, 2009, 8, none, "movie".toList, none, none⟩,
         ⟨"UP".toList, 2010, 7, none, "movie".toList, none, none⟩]
        "up".toList).movies.length ≠ 1) := by
  refine ⟨by decide, by decide⟩

/-- Claim C5 (amended): delete keeps exactly the entries whose lowercased
title differs from the lowercased argument — so it removes ALL
case-insensitive matches, not exactly one; when nothing matches the
collection is unchanged (the save still happens, on the same list) and
not-found is reported; when a match exists nothing is reported; every
surviving entry is a non-match, untouched; and the operation is
idempotent. -/
theorem C5_delete_removes_all_matches (movies : List Movie) (title : Str) :
    (StorageJson_delete_movie movies title).movies
        = movies.filter (fun m => lowerPy m.title ≠ lowerPy title)
    ∧ (StorageCsv_delete_movie movies title).movies
        = movies.filter (fun m => lowerPy m.title ≠ lowerPy title)
    ∧ ((∀ m ∈ movies, lowerPy m.title ≠ lowerPy title) →
        (StorageJson_delete_movie movies title).movies = movies
        ∧ (StorageJson_delete_movie movies title).printed_not_found = true
        ∧ (StorageCsv_delete_movie movies title).printed_not_found = true)
    ∧ ((∃ m ∈ movies, lowerPy m.title = lowerPy title) →
        (StorageJson_delete_movie movies title).printed_not_found = false
        ∧ (StorageCsv_delete_movie movies title).printed_not_found = false)
    ∧ (∀ m ∈ (StorageJson_delete_movie movies title).movies,
        lowerPy m.title ≠ lowerPy title)
    ∧ (StorageJson_delete_movie
        (StorageJson_delete_movie movies title).movies title).movies
        = (StorageJson_delete_movie movies title).movies := by
  refine ⟨rfl, rfl, ?_, ?_, ?_, ?_⟩
  · intro h
    have hf : movies.filter (fun m => lowerPy m.title ≠ lowerPy title) = movies :=
      List.filter_eq_self.mpr (fun a ha => decide_eq_true (h a ha))
    refine ⟨hf, ?_, ?_⟩ <;>
      · simp [StorageJson_delete_movie, StorageCsv_delete_movie, hf]
        exact h
  · intro h
    obtain ⟨m, hm, hmt⟩ := h
    have hlt := filter_length_lt_of_mem_not movies
      (fun m => decide (lowerPy m.title ≠ lowerPy title)) m hm
      (decide_eq_false (by simp [hmt]))
    constructor <;>
      · show decide _ = false
        exact decide_eq_false (Nat.ne_of_lt hlt)
  · intro m hm
    exact of_decide_eq_true (List.mem_filter.mp hm).2
  · show List.filter _ (List.filter _ movies) = List.filter _ movies
    exact List.filter_eq_self.mpr (fun a ha => (List.mem_filter.mp ha).2)

theorem C5_delete_removes_all_matches_witness :
    (StorageJson_delete_movie
        [⟨"Up".toList, 2009, 8, none, "movie".toList, none, none⟩]
        "dune".toList).movies
      = [⟨"Up".toList, 2009, 8, none, "movie".toList, none, none⟩]
    ∧ (StorageJson_delete_movie
        [⟨"Up".toList, 2009, 8, none, "movie".toList, none, none⟩]
        "dune".toList).printed_not_found = true
    ∧ (StorageJson_delete_movie
        [⟨"Up".toList, 2009, 8, none, "movie".toList, none, none⟩]
        "up".toList).printed_not_found = false :=
  ⟨((C5_delete_removes_all_matches
      [⟨"Up".toList, 2009, 8, none, "movie".toList, none, none⟩]
      "dune".toList).2.2.1 (by decide)).1,
   ((C5_delete_removes_all_matches
      [⟨"Up".toList, 2009, 8, none, "movie".toList, none, none⟩]
      "dune".toList).2.2.1 (by decide)).2.1,
   ((C5_delete_removes_all_matches
      [⟨"Up".toList, 2009, 8, none, "movie".toList, none, none⟩]
      "up".toList).2.2.2.1
      ⟨⟨"Up".toList, 2009, 8, none, "movie".toList, none, none⟩,
        by simp, by decide⟩).1⟩

/-- The close-match call of the resolver (src/user_input_handler.py line 76):
`difflib.get_close_matches(user_input_lower, lower_options.keys(), n=5,
cutoff=0.4)`. -/
def closeMatchesOf (user_input : Str) (options : List Str) : List Str :=
  get_close_matches (lowerPy user_input) ((buildLowerOptions options).map Prod.fst)
    5 (mkRat 2 5)

/-- Claim C6: the approximate-match step runs only after the exact step and
the substring step both produce nothing; it ranks the known (lowercased)
titles by the diff-style similarity ratio against the lowercased input,
keeps at most 5 candidates all of whose ratios reach the 0.4 cutoff, in
descending ratio order; when that candidate set is empty the resolver
returns no match (the "no matches found" report), otherwise it prompts over
the candidate list. -/
theorem C6_close_match_step (user_input : Str) (options : List Str)
    (sel : Option Nat)
    (hexact : assocLookup (buildLowerOptions options) (lowerPy user_input) = none)
    (hsub : options.filter (fun s => isSub (lowerPy user_input) (lowerPy s)) = []) :
    (closeMatchesOf user_input options = [] →
        get_best_match user_input options sel = MatchOutcome.noMatch)
    ∧ (closeMatchesOf user_input options ≠ [] →
        get_best_match user_input options sel =
          MatchOutcome.promptClose (closeMatchesOf user_input options)
            ((selectFromList (closeMatchesOf user_input options) sel).bind
              (fun m => assocLookup (buildLowerOptions options) m)))
    ∧ (closeMatchesOf user_input options).length ≤ 5
    ∧ (∀ x ∈ closeMatchesOf user_input options,
        x ∈ (buildLowerOptions options).map Prod.fst
        ∧ mkRat 2 5 ≤ ratioPy x (lowerPy user_input))
    ∧ (closeMatchesOf user_input options).Pairwise
        (fun x y => ratioPy y (lowerPy user_input) ≤ ratioPy x (lowerPy user_input)) := by
  have hspec := get_close_matches_spec (lowerPy user_input)
    ((buildLowerOptions options).map Prod.fst) 5 (mkRat 2 5)
  refine ⟨?_, ?_, hspec.1, fun x hx => hspec.2.1 x hx, hspec.2.2⟩
  · intro hcl
    simp only [closeMatchesOf] at hcl
    simp only [get_best_match]
    rw [hexact, hsub]
    simp [hcl]
  · intro hcl
    simp only [closeMatchesOf] at hcl ⊢
    simp only [get_best_match]
    rw [hexact, hsub]
    obtain ⟨c, cs, hcc⟩ := List.exists_cons_of_ne_nil hcl
    rw [hcc]
    simp

theorem C6_close_match_step_witness :
    get_best_match "zzzz".toList ["Dune".toList] none = MatchOutcome.noMatch
    ∧ get_best_match "matrxi".toList ["The Matrix".toList] (some 1) =
        MatchOutcome.promptClose ["the matrix".toList] (some "The Matrix".toList) :=
  ⟨(C6_close_match_step "zzzz".toList ["Dune".toList] none
      (by decide) (by decide)).1 (by decide),
   (C6_close_match_step "matrxi".toList ["The Matrix".toList] (some 1)
      (by decide) (by decide)).2.1 (by decide)⟩

/-- Claim C7: for a path whose lowercased suffix is in the static handler
table, the selector returns exactly the handler type the table specifies
(the handler is built from the path alone — file contents are never
consulted: the model's only input is the path); for any other suffix it
fails, and the error message names the offending suffix and contains every
supported suffix. -/
theorem C7_get_handler_spec (p : Str) :
    (∀ h : HandlerType, (lowerPy (splitext_ext p), h) ∈ handlers_table →
        get_handler p = Except.ok (h, p))
    ∧ (lowerPy (splitext_ext p) ∉ handlers_table.map Prod.fst →
        get_handler p = Except.error (unsupported_message (lowerPy (splitext_ext p)))
        ∧ isSub (lowerPy (splitext_ext p))
            (unsupported_message (lowerPy (splitext_ext p))) = true
        ∧ ∀ s ∈ handlers_table.map Prod.fst,
            isSub s (unsupported_message (lowerPy (splitext_ext p))) = true) := by
  constructor
  · intro h hmem
    have hl := lookupHandler_of_mem handlers_table (lowerPy (splitext_ext p)) h
      (by decide) hmem
    simp only [get_handler]
    rw [hl]
  · intro hnot
    have hl := lookupHandler_eq_none handlers_table (lowerPy (splitext_ext p)) hnot
    refine ⟨?_, ?_, ?_⟩
    · simp only [get_handler]
      rw [hl]
    · unfold unsupported_message
      rw [List.append_assoc, List.append_assoc]
      exact isSub_append_right _ _ _ (isSub_self_append _ _)
    · intro s hs
      unfold unsupported_message
      exact isSub_append_right s _ _ (isSub_joinStr _ _ s hs)

theorem C7_get_handler_spec_witness :
    get_handler "movies.JSON".toList =
        Except.ok (HandlerType.json, "movies.JSON".toList)
    ∧ get_handler "data.xyz".toList =
        Except.error (unsupported_message ".xyz".toList)
    ∧ isSub ".xyz".toList (unsupported_message ".xyz".toList) = true
    ∧ isSub ".csv".toList (unsupported_message ".xyz".toList) = true :=
  ⟨(C7_get_handler_spec "movies.JSON".toList).1 HandlerType.json (by decide),
   ((C7_get_handler_spec "data.xyz".toList).2 (by decide)).1,
   ((C7_get_handler_spec "data.xyz".toList).2 (by decide)).2.1,
   ((C7_get_handler_spec "data.xyz".toList).2 (by decide)).2.2 ".csv".toList
     (by decide)⟩

/-- Claim C8 counterexample: updating a title absent from a one-entry
catalog, the delimited-table backend prints the not-found message but the
structured-record (JSON) backend prints nothing — its loop simply falls
through — so it is not true that both backends report "not found". -/
theorem C8_counterexample :
    (StorageJson_update_movie
        [⟨"A".toList, 2000, 5, none, "movie".toList, none, none⟩]
        "B".toList (some "n".toList)).printed_not_found = false
    ∧ (StorageCsv_update_movie
        [⟨"A".toList, 2000, 5, none, "movie".toList, none, none⟩]
        "B".toList (some "n".toList)).printed_not_found = true := ⟨rfl, rfl⟩

/-- Claim C8 (amended): when no stored title matches case-insensitively,
only the delimited-table backend reports "not found"; the structured-record
backend reports nothing (and neither backend saves or changes the list). -/
theorem C8_update_not_found_reporting (movies : List Movie) (title : Str)
    (note : Option Str) (h : ∀ m ∈ movies, lowerPy m.title ≠ lowerPy title) :
    (StorageCsv_update_movie movies title note).printed_not_found = true
    ∧ (StorageJson_update_movie movies title note).printed_not_found = false
    ∧ (StorageJson_update_movie movies title note).saved = false
    ∧ (StorageCsv_update_movie movies title note).saved = false
    ∧ (StorageJson_update_movie movies title note).movies = movies
    ∧ (StorageCsv_update_movie movies title note).movies = movies := by
  have hl := update_movie_loop_not_found movies title note h
  refine ⟨?_, rfl, ?_, ?_, ?_, ?_⟩ <;>
    simp [StorageCsv_update_movie, StorageJson_update_movie, hl]

theorem C8_update_not_found_reporting_witness :
    (StorageCsv_update_movie
        [⟨"A".toList, 2000, 5, none, "movie".toList, none, none⟩]
        "B".toList none).printed_not_found = true
    ∧ (StorageJson_update_movie
        [⟨"A".toList, 2000, 5, none, "movie".toList, none, none⟩]
        "B".toList none).printed_not_found = false :=
  ⟨(C8_update_not_found_reporting
      [⟨"A".toList, 2000, 5, none, "movie".toList, none, none⟩]
      "B".toList none (by decide)).1,
   (C8_update_not_found_reporting
      [⟨"A".toList, 2000, 5, none, "movie".toList, none, none⟩]
      "B".toList none (by decide)).2.1⟩

/-- Claim C9: updating the first case-insensitively matching entry with an
empty-string note stores an absent note (`None`), never the empty string,
in both backends, and the catalog is saved. -/
theorem C9_update_empty_note (pre : List Movie) (m : Movie) (post : List Movie)
    (title : Str)
    (hpre : ∀ p ∈ pre, lowerPy p.title ≠ lowerPy title)
    (hm : lowerPy m.title = lowerPy title) :
    (StorageJson_update_movie (pre ++ m :: post) title (some [])).movies
        = pre ++ { m with note := none } :: post
    ∧ (StorageJson_update_movie (pre ++ m :: post) title (some [])).saved = true
    ∧ (StorageCsv_update_movie (pre ++ m :: post) title (some [])).movies
        = pre ++ { m with note := none } :: post
    ∧ (StorageCsv_update_movie (pre ++ m :: post) title (some [])).saved = true := by
  have hl := update_movie_loop_spec pre m post title (some []) hpre hm
  refine ⟨?_, ?_, ?_, ?_⟩ <;>
    simp [StorageJson_update_movie, StorageCsv_update_movie, hl]

theorem C9_update_empty_note_witness :
    (StorageJson_update_movie
        [⟨"T".toList, 2000, 5, none, "movie".toList, none, some "old".toList⟩]
        "t".toList (some [])).movies
      = [⟨"T".toList, 2000, 5, none, "movie".toList, none, none⟩]
    ∧ (StorageJson_update_movie
        [⟨"T".toList, 2000, 5, none, "movie".toList, none, some "old".toList⟩]
        "t".toList (some [])).saved = true :=
  ⟨(C9_update_empty_note []
      ⟨"T".toList, 2000, 5, none, "movie".toList, none, some "old".toList⟩ []
      "t".toList (by simp) (by decide)).1,
   (C9_update_empty_note []
      ⟨"T".toList, 2000, 5, none, "movie".toList, none, some "old".toList⟩ []
      "t".toList (by simp) (by decide)).2.1⟩

/-- Claim C10 (implicit): calling update with the note argument omitted
(`None`) does not preserve the matched entry's existing note — the loop
unconditionally assigns `movie["note"] = note` first and the guarded
reassignment is skipped, so the stored note becomes absent and the catalog
is saved, erasing whatever note was there. -/
theorem C10_update_none_erases_note (pre : List Movie) (m : Movie)
    (post : List Movie) (title : Str)
    (hpre : ∀ p ∈ pre, lowerPy p.title ≠ lowerPy title)
    (hm : lowerPy m.title = lowerPy title) :
    (StorageJson_update_movie (pre ++ m :: post) title none).movies
        = pre ++ { m with note := none } :: post
    ∧ (StorageJson_update_movie (pre ++ m :: post) title none).saved = true
    ∧ (StorageCsv_update_movie (pre ++ m :: post) title none).movies
        = pre ++ { m with note := none } :: post
    ∧ (StorageCsv_update_movie (pre ++ m :: post) title none).saved = true := by
  have hl := update_movie_loop_spec pre m post title none hpre hm
  refine ⟨?_, ?_, ?_, ?_⟩ <;>
    simp [StorageJson_update_movie, StorageCsv_update_movie, hl]

theorem C10_update_none_erases_note_witness :
    (StorageJson_update_movie
        [⟨"T".toList, 2000, 5, none, "movie".toList, none, some "keep me".toList⟩]
        "t".toList none).movies
      = [⟨"T".toList, 2000, 5, none, "movie".toList, none, none⟩]
    ∧ (StorageJson_update_movie
        [⟨"T".toList, 2000, 5, none, "movie".toList, none, some "keep me".toList⟩]
        "t".toList none).saved = true :=
  ⟨(C10_update_none_erases_note []
      ⟨"T".toList, 2000, 5, none, "movie".toList, none, some "keep me".toList⟩ []
      "t".toList (by simp) (by decide)).1,
   (C10_update_none_erases_note []
      ⟨"T".toList, 2000, 5, none, "movie".toList, none, some "keep me".toList⟩ []
      "t".toList (by simp) (by decide)).2.1⟩
